import Mathlib

/-!
# Ray tracing in a weekend: `hit_sphere`, `ray::at` and `ray_color`

A shallow embedding of `src/main.cpp` and `src/ray.hpp`.

* `double` is read as an element of a linearly ordered field `K` (the theorems
  that need square roots take `K = ℝ` and `Real.sqrt`).  A quotient by zero
  and a square root of a negative number have no real value: operations that
  can meet one return an `Option`, `none` standing for the non-finite result
  of the C++ code.
* `sqrt` (from `<cmath>`) is an argument of the functions that call it.
* The process-wide random source is a state of type `G` passed through
  every operation that may draw from it.
* A `shared_ptr<material>` is a handle of type `M`; `deref` maps a handle to
  the object it points to.
-/

namespace RTWeekend

/-! ## vec3 -/

/-- Modelled from the spec: `vec3` (alias `point3`, `color`) of the missing
`vec3.hpp`: three real components, owned by value. -/
@[ext]
structure vec3 (K : Type) where
  x : K
  y : K
  z : K
deriving DecidableEq

/-- Modelled from the spec: `point3` is an alias of `vec3`. -/
abbrev point3 (K : Type) := vec3 K

/-- Modelled from the spec: `color` is an alias of `vec3`. -/
abbrev color (K : Type) := vec3 K

namespace vec3

variable {K : Type}

/-- Modelled from the spec: component-wise `operator+` of the missing `vec3.hpp`. -/
def add [Add K] (u v : vec3 K) : vec3 K := ⟨u.x + v.x, u.y + v.y, u.z + v.z⟩

/-- Modelled from the spec: component-wise `operator-` of the missing `vec3.hpp`. -/
def sub [Sub K] (u v : vec3 K) : vec3 K := ⟨u.x - v.x, u.y - v.y, u.z - v.z⟩

/-- Modelled from the spec: component-wise product `operator*(vec3, vec3)` of
the missing `vec3.hpp`. -/
def mul [Mul K] (u v : vec3 K) : vec3 K := ⟨u.x * v.x, u.y * v.y, u.z * v.z⟩

/-- Modelled from the spec: scalar multiple `operator*(double, vec3)` of the
missing `vec3.hpp`. -/
def smul [Mul K] (t : K) (v : vec3 K) : vec3 K := ⟨t * v.x, t * v.y, t * v.z⟩

/-- Modelled from the spec: the quotient `operator/(vec3, double)` of the
missing `vec3.hpp`, on a divisor that is not zero. -/
def sdiv [Div K] (v : vec3 K) (t : K) : vec3 K := ⟨v.x / t, v.y / t, v.z / t⟩

instance [Add K] : Add (vec3 K) := ⟨add⟩
instance [Sub K] : Sub (vec3 K) := ⟨sub⟩
instance [Mul K] : Mul (vec3 K) := ⟨mul⟩
instance [Mul K] : HMul K (vec3 K) (vec3 K) := ⟨smul⟩

/-- Modelled from the spec: `dot` of the missing `vec3.hpp`. -/
def dot [Add K] [Mul K] (u v : vec3 K) : K := u.x * v.x + u.y * v.y + u.z * v.z

/-- Modelled from the spec: `vec3::length_squared` of the missing `vec3.hpp`. -/
def length_squared [Add K] [Mul K] (v : vec3 K) : K := v.x * v.x + v.y * v.y + v.z * v.z

/-- Modelled from the spec: `vec3::length` of the missing `vec3.hpp`, the
square root of `length_squared` (which is never negative). -/
def length [Add K] [Mul K] (sqrt : K → K) (v : vec3 K) : K := sqrt (length_squared v)

/-- Modelled from the spec: `unit_vector` of the missing `vec3.hpp`, `v / v.length()`.
The spec: "fails semantically if length is 0 — division by zero yields
non-finite components"; that outcome is `none`. -/
def unit_vector [Add K] [Mul K] [Div K] [Zero K] [DecidableEq K] (sqrt : K → K) (v : vec3 K) :
    Option (vec3 K) :=
  if length sqrt v = 0 then none else some (sdiv v (length sqrt v))

end vec3

open vec3

/-! ## Arithmetic that can leave the reals -/

/-- The quotient `x / y` of two doubles read as reals: no real value when `y = 0`. -/
def checked_div {K : Type} [Div K] [Zero K] [DecidableEq K] (x y : K) : Option K :=
  if y = 0 then none else some (x / y)

/-- The call `sqrt(x)` read over the reals: no real value when `x < 0`. -/
def checked_sqrt {K : Type} [Zero K] [LT K] [DecidableRel (fun a b : K => a < b)]
    (sqrt : K → K) (x : K) : Option K :=
  if x < 0 then none else some (sqrt x)

/-! ## ray.hpp -/

/-- The class `ray` of `ray.hpp`: its two data members. -/
@[ext]
structure ray (K : Type) where
  orig : point3 K
  dir : vec3 K
deriving DecidableEq

namespace ray

variable {K : Type}

/-- The accessor `ray::origin`. -/
def origin (r : ray K) : point3 K := r.orig

/-- The accessor `ray::direction`. -/
def direction (r : ray K) : vec3 K := r.dir

end ray

/-- The member `ray::at`: `return orig + t * dir;`. -/
def ray.at {K : Type} [Add K] [Mul K] (r : ray K) (t : K) : point3 K := r.orig + t * r.dir

/-! ## main.cpp: hit_sphere -/

/-- The function `hit_sphere` of `main.cpp`.  The result is `none` when the
evaluation meets a square root of a negative number or a quotient by zero. -/
def hit_sphere {K : Type} [LinearOrderedField K] (sqrt : K → K)
    (center : point3 K) (radius : K) (r : ray K) : Option K :=
  let oc := r.origin - center
  let a := r.direction.length_squared
  let half_b := dot oc r.direction
  let c := oc.length_squared - radius * radius
  let discriminant := half_b * half_b - a * c
  if discriminant < 0 then
    some (-1.0)
  else
    (checked_sqrt sqrt discriminant).bind fun s => checked_div (-half_b - s) a

/-- The discriminant `half_b * half_b - a * c` that `hit_sphere` computes. -/
def discriminant {K : Type} [LinearOrderedField K]
    (center : point3 K) (radius : K) (r : ray K) : K :=
  let oc := r.origin - center
  let a := r.direction.length_squared
  let half_b := dot oc r.direction
  let c := oc.length_squared - radius * radius
  half_b * half_b - a * c

/-! ## main.cpp: ray_color -/

/-- Modelled from the spec: `hit_record` of the missing `hittable.hpp`:
"{point, normal (unit length, oriented against incoming ray), t, front_face,
material: reference to the hit object's material}". -/
structure hit_record (K M : Type) where
  p : point3 K
  normal : vec3 K
  mat_ptr : M
  t : K
  front_face : Bool

/-- Modelled from the spec: the abstract class `hittable` of the missing
`hittable.hpp`: "hit(ray, t_min, t_max) -> optional HitRecord".  The bound
`t_max` may be the constant `infinity`, written `⊤`. -/
structure hittable (K M : Type) where
  hit : ray K → K → WithTop K → Option (hit_record K M)

/-- Modelled from the spec: the abstract class `material` of the missing
`material.hpp`: "scatter(ray_in, hit_record) -> (attenuation: Color,
scattered: Ray) | None".  A scatter may draw from the random source `G`. -/
structure material (K M G : Type) where
  scatter : ray K → hit_record K M → G → Option (color K × ray K) × G

/-- The function `ray_color` of `main.cpp`.  The colour is `none` when the
background branch normalises a direction of length zero. -/
def ray_color {K M G : Type} [LinearOrderedField K] (sqrt : K → K)
    (deref : M → material K M G) (r : ray K) (world : hittable K M) (depth : Int) (g : G) :
    Option (color K) × G :=
  if depth ≤ 0 then
    (some ⟨0, 0, 0⟩, g)
  else
    match world.hit r 0.001 ⊤ with
    | some rec =>
      match (deref rec.mat_ptr).scatter r rec g with
      | (some (attenuation, scattered), g1) =>
        let res := ray_color sqrt deref scattered world (depth - 1) g1
        (res.1.map fun c => attenuation * c, res.2)
      | (none, g1) => (some ⟨0, 0, 0⟩, g1)
    | none =>
      ((unit_vector sqrt r.direction).map fun unit_direction =>
          let t : K := 0.5 * (unit_direction.y + 1.0)
          ((1.0 - t) * (⟨1.0, 1.0, 1.0⟩ : color K) : color K)
            + (t * (⟨0.5, 0.7, 1.0⟩ : color K) : color K),
        g)
termination_by depth.toNat
decreasing_by omega

/-! ## ray_color with a bound on the nesting of calls -/

/-- The function `ray_color` run with a budget `fuel` on the nesting of its
recursive calls: the same body, where a recursive call that the budget does
not cover gives `none`.  Next to the result it returns the `depth` argument
of every recursive call made, outermost first. -/
def ray_color_fuel {K M G : Type} [LinearOrderedField K] (sqrt : K → K)
    (deref : M → material K M G) (fuel : Nat) (r : ray K) (world : hittable K M) (depth : Int)
    (g : G) : Option ((Option (color K) × G) × List Int) :=
  if depth ≤ 0 then
    some ((some ⟨0, 0, 0⟩, g), [])
  else
    match world.hit r 0.001 ⊤ with
    | some rec =>
      match (deref rec.mat_ptr).scatter r rec g with
      | (some (attenuation, scattered), g1) =>
        match fuel with
        | 0 => none
        | fuel1 + 1 =>
          (ray_color_fuel sqrt deref fuel1 scattered world (depth - 1) g1).map fun res =>
            ((res.1.1.map fun c => attenuation * c, res.1.2), (depth - 1) :: res.2)
      | (none, g1) => some ((some ⟨0, 0, 0⟩, g1), [])
    | none =>
      some (((unit_vector sqrt r.direction).map fun unit_direction =>
          let t : K := 0.5 * (unit_direction.y + 1.0)
          ((1.0 - t) * (⟨1.0, 1.0, 1.0⟩ : color K) : color K)
            + (t * (⟨0.5, 0.7, 1.0⟩ : color K) : color K),
        g), [])

/-! ## ray_color as a loop, after the spec -/

/-- The background gradient of the spec, "(1 - t)*(1,1,1) + t*(0.5,0.7,1.0)
where t = 0.5·(unit_direction.y + 1)", for the ray `r`. -/
def background {K : Type} [LinearOrderedField K] (sqrt : K → K) (r : ray K) : Option (color K) :=
  (unit_vector sqrt r.direction).map fun unit_direction =>
    let t : K := 0.5 * (unit_direction.y + 1)
    ((1 - t) * (⟨1, 1, 1⟩ : color K) : color K) + (t * (⟨0.5, 0.7, 1.0⟩ : color K) : color K)

/-- The iterations of the loop that the spec describes, "an explicit loop
accumulating attenuation products": `n` iterations are left, `product` is the
product of the attenuations so far and `cur` the current ray.  A miss
finishes with `product * background`, an absorption with black, and so does
the end of the iterations. -/
def ray_color_loop_iter {K M G : Type} [LinearOrderedField K] (sqrt : K → K)
    (deref : M → material K M G) (world : hittable K M) :
    Nat → color K → ray K → G → Option (color K) × G
  | 0, _, _, g => (some ⟨0, 0, 0⟩, g)
  | n + 1, product, cur, g =>
    match world.hit cur 0.001 ⊤ with
    | none => ((background sqrt cur).map fun b => product * b, g)
    | some rec =>
      match (deref rec.mat_ptr).scatter cur rec g with
      | (none, g1) => (some ⟨0, 0, 0⟩, g1)
      | (some (attenuation, scattered), g1) =>
        ray_color_loop_iter sqrt deref world n (product * attenuation) scattered g1

/-- The loop of the spec: it starts with the product `(1,1,1)` and the given
ray and runs at most `depth` iterations. -/
def ray_color_loop {K M G : Type} [LinearOrderedField K] (sqrt : K → K)
    (deref : M → material K M G) (r : ray K) (world : hittable K M) (depth : Int) (g : G) :
    Option (color K) × G :=
  ray_color_loop_iter sqrt deref world depth.toNat ⟨1, 1, 1⟩ r g

/-! ## main.cpp: the samples of a pixel -/

/-- The constant `aspect_ratio` of `main`. -/
def aspect_ratio : ℚ := 16 / 9

/-- The constant `image_width` of `main`. -/
def image_width : Int := 384

/-- The constant `image_height` of `main`:
`static_cast<int>(image_width / aspect_ratio)`. -/
def image_height : Int := Rat.floor ((image_width : ℚ) / aspect_ratio)

/-- Modelled from the spec: the class `camera` of the missing `camera.hpp`:
"get_ray(s,t) -> Ray"; it "samples a random point within a unit disk", so it
draws from the random source. -/
structure camera (K G : Type) where
  get_ray : K → K → G → ray K × G

/-- The coordinate `u = (i + random_double()) / (image_width - 1)` of `main`,
for the draw `d`. -/
def pixel_u {K : Type} [LinearOrderedField K] (i : Int) (d : K) : K :=
  ((i : K) + d) / (((image_width - 1 : Int) : K))

/-- The coordinate `v = (j + random_double()) / (image_height - 1)` of `main`,
for the draw `d`. -/
def pixel_v {K : Type} [LinearOrderedField K] (j : Int) (d : K) : K :=
  ((j : K) + d) / (((image_height - 1 : Int) : K))

/-- The statement `pixel_color += c` on colours that may have no value. -/
def accumulate {K : Type} [Add K] (pixel_color c : Option (color K)) : Option (color K) :=
  pixel_color.bind fun p => c.map fun q => p + q

/-- The loop `for (int s = 0; s < samples_per_pixel; ++s)` of `main` for the
pixel `(i, j)`, with `n` iterations left (`samples_per_pixel = 100` at the
start, in `main`) and the depth `max_depth` (`50` in `main`): it returns the
accumulated `pixel_color` and the state of the random source.
`random_double` is the missing uniform source of `rtweekend.hpp`. -/
def sample_loop {K M G : Type} [LinearOrderedField K] (sqrt : K → K)
    (random_double : G → K × G) (cam : camera K G) (deref : M → material K M G)
    (world : hittable K M) (max_depth : Int) (i j : Int) :
    Nat → Option (color K) → G → Option (color K) × G
  | 0, pixel_color, g => (pixel_color, g)
  | n + 1, pixel_color, g =>
    let d1 := random_double g
    let u := pixel_u i d1.1
    let d2 := random_double d1.2
    let v := pixel_v j d2.1
    let r := cam.get_ray u v d2.2
    let c := ray_color sqrt deref r.1 world max_depth r.2
    sample_loop sqrt random_double cam deref world max_depth i j n (accumulate pixel_color c.1) c.2

/-- The ray on which an evaluation of `ray_color` takes its last branch, the
background, if it takes it: the descent of `ray_color` through `world.hit`
and `scatter`, returning the ray that misses the world; `none` when the
evaluation ends on the depth limit or on an absorption. -/
def ray_color_missed {K M G : Type} [LinearOrderedField K]
    (deref : M → material K M G) (r : ray K) (world : hittable K M) (depth : Int) (g : G) :
    Option (ray K) :=
  if depth ≤ 0 then
    none
  else
    match world.hit r 0.001 ⊤ with
    | some rec =>
      match (deref rec.mat_ptr).scatter r rec g with
      | (some (_, scattered), g1) => ray_color_missed deref scattered world (depth - 1) g1
      | (none, _) => none
    | none => some r
termination_by depth.toNat
decreasing_by omega

/-- The colours `ray_color(r, world, max_depth)` of the samples that
`sample_loop` accumulates, in the order of the loop, for `n` iterations from
the state `g` of the random source. -/
def sample_colors {K M G : Type} [LinearOrderedField K] (sqrt : K → K)
    (random_double : G → K × G) (cam : camera K G) (deref : M → material K M G)
    (world : hittable K M) (max_depth : Int) (i j : Int) :
    Nat → G → List (Option (color K))
  | 0, _ => []
  | n + 1, g =>
    let d1 := random_double g
    let u := pixel_u i d1.1
    let d2 := random_double d1.2
    let v := pixel_v j d2.1
    let r := cam.get_ray u v d2.2
    let c := ray_color sqrt deref r.1 world max_depth r.2
    c.1 :: sample_colors sqrt random_double cam deref world max_depth i j n c.2

/-- Modelled from the spec: the average that the missing `write_color` takes,
"Final pixel value = accumulated sum / N"; no value for `N = 0`. -/
def pixel_average {K : Type} [LinearOrderedField K] (pixel_color : Option (color K))
    (samples_per_pixel : Int) : Option (color K) :=
  if samples_per_pixel = 0 then none
  else pixel_color.map fun p => sdiv p (samples_per_pixel : K)

/-- Every channel of the colour lies in `[0,1]`. -/
def in_unit_range {K : Type} [LinearOrderedField K] (c : color K) : Prop :=
  (0 ≤ c.x ∧ c.x ≤ 1) ∧ (0 ≤ c.y ∧ c.y ≤ 1) ∧ (0 ≤ c.z ∧ c.z ≤ 1)

instance {K : Type} [LinearOrderedField K] (c : color K) : Decidable (in_unit_range c) :=
  inferInstanceAs (Decidable ((0 ≤ c.x ∧ c.x ≤ 1) ∧ (0 ≤ c.y ∧ c.y ≤ 1) ∧ (0 ≤ c.z ∧ c.z ≤ 1)))

/-- Every channel of the colour lies in `[0,b]`. -/
def channels_within {K : Type} [LinearOrderedField K] (b : K) (c : color K) : Prop :=
  (0 ≤ c.x ∧ c.x ≤ b) ∧ (0 ≤ c.y ∧ c.y ≤ b) ∧ (0 ≤ c.z ∧ c.z ≤ b)

/-! ## main.cpp: random_scene -/

/-- Modelled from the spec: the material objects that `random_scene` makes,
with their constructor arguments: "Lambertian{albedo: Color}, Metal{albedo:
Color, fuzz: real in [0,1]}, Dielectric{refraction_index: real}" of the
missing `material.hpp`. -/
inductive scene_material (K : Type) where
  | lambertian (albedo : color K)
  | metal (albedo : color K) (fuzz : K)
  | dielectric (ri : K)

/-- Modelled from the spec: the class `sphere` of the missing `sphere.hpp`:
"Sphere = {center: Point3, radius: real, material}". -/
structure sphere (K : Type) where
  center : point3 K
  radius : K
  mat_ptr : scene_material K

/-- Modelled from the spec: the class `hittable_list` of the missing
`hittable_list.hpp`, an "ordered collection"; `world.add(s)` appends `s`. -/
abbrev hittable_list (K : Type) := List (sphere K)

/-- Modelled from the spec: `random_double(min, max)` of the missing
`rtweekend.hpp`, "uniform in [min,max)", one draw of `random_double()`
scaled into the interval. -/
def random_double_range {K G : Type} [LinearOrderedField K] (random_double : G → K × G)
    (min max : K) (g : G) : K × G :=
  let d := random_double g
  (min + (max - min) * d.1, d.2)

/-- Modelled from the spec: `color::random()` of the missing `vec3.hpp`,
"uniform in [0,1)^3": three draws. -/
def color_random {K G : Type} (random_double : G → K × G) (g : G) : color K × G :=
  let d1 := random_double g
  let d2 := random_double d1.2
  let d3 := random_double d2.2
  (⟨d1.1, d2.1, d3.1⟩, d3.2)

/-- Modelled from the spec: `color::random(min, max)` of the missing
`vec3.hpp`, "uniform in [min,max)^3": three draws. -/
def color_random_range {K G : Type} [LinearOrderedField K] (random_double : G → K × G)
    (min max : K) (g : G) : color K × G :=
  let d1 := random_double_range random_double min max g
  let d2 := random_double_range random_double min max d1.2
  let d3 := random_double_range random_double min max d2.2
  (⟨d1.1, d2.1, d3.1⟩, d3.2)

/-- A loop `for (int a = lo; a < hi; a++) body` on a state of type `S`. -/
def for_loop {S : Type} (body : Int → S → S) (lo hi : Int) (s : S) : S :=
  if lo < hi then for_loop body (lo + 1) hi (body lo s) else s
termination_by (hi - lo).toNat
decreasing_by omega

/-- The body of the inner loop of `random_scene`, for the indices `a` and
`b`, on the list `world` and the state of the random source.  Calls of the
random source within one expression are taken from left to right. -/
def random_scene_body {K G : Type} [LinearOrderedField K] (sqrt : K → K)
    (random_double : G → K × G) (a b : Int) (st : hittable_list K × G) : hittable_list K × G :=
  let world := st.1
  let choose_mat := random_double st.2
  let cx := random_double choose_mat.2
  let cz := random_double cx.2
  let center : point3 K := ⟨(a : K) + 0.9 * cx.1, 0.2, (b : K) + 0.9 * cz.1⟩
  if length sqrt (center - ⟨4, 0.2, 0⟩) > 0.9 then
    if choose_mat.1 < 0.8 then
      -- diffuse
      let c1 := color_random random_double cz.2
      let c2 := color_random random_double c1.2
      let albedo := c1.1 * c2.1
      (world ++ [⟨center, 0.2, scene_material.lambertian albedo⟩], c2.2)
    else if choose_mat.1 < 0.95 then
      -- metal
      let albedo := color_random_range random_double 0.5 1 cz.2
      let fuzz := random_double_range random_double 0 0.5 albedo.2
      (world ++ [⟨center, 0.2, scene_material.metal albedo.1 fuzz.1⟩], fuzz.2)
    else
      -- glass
      (world ++ [⟨center, 0.2, scene_material.dielectric 1.5⟩], cz.2)
  else
    (world, cz.2)

/-- The function `random_scene` of `main.cpp`: the list it returns, and the
state in which it leaves the random source. -/
def random_scene {K G : Type} [LinearOrderedField K] (sqrt : K → K)
    (random_double : G → K × G) (g : G) : hittable_list K × G :=
  let world : hittable_list K :=
    [⟨⟨0, -1000, 0⟩, 1000, scene_material.lambertian ⟨0.5, 0.5, 0.5⟩⟩]
  let st := for_loop (fun a st1 =>
      for_loop (fun b st2 => random_scene_body sqrt random_double a b st2) (-11) 11 st1)
    (-11) 11 (world, g)
  (st.1
      ++ [⟨⟨0, 1, 0⟩, 1.0, scene_material.dielectric 1.5⟩]
      ++ [⟨⟨-4, 1, 0⟩, 1.0, scene_material.lambertian ⟨0.4, 0.2, 0.1⟩⟩]
      ++ [⟨⟨4, 1, 0⟩, 1.0, scene_material.metal ⟨0.7, 0.6, 0.5⟩ 0.0⟩],
    st.2)

/-- The radius is one of the three that `random_scene` uses. -/
def scene_radius {K : Type} [LinearOrderedField K] (s : sphere K) : Prop :=
  s.radius = 1000 ∨ s.radius = 0.2 ∨ s.radius = 1.0

/-! ## Sample worlds -/

/-- A world in which every ray hits, at its own origin, an object whose
material is `m`. -/
def world_always_hit {K M : Type} [LinearOrderedField K] (m : M) : hittable K M :=
  ⟨fun r _ _ => some ⟨r.orig, ⟨0, 1, 0⟩, m, 1, true⟩⟩

/-- A world that a ray hits, at the point `(0,0,0)`, exactly when it starts
below the plane `z = 0`: a ray scattered from the hit point misses. -/
def world_one_bounce {K M : Type} [LinearOrderedField K] (m : M) : hittable K M :=
  ⟨fun r _ _ => if r.orig.z < 0 then some ⟨⟨0, 0, 0⟩, ⟨0, 1, 0⟩, m, 1, true⟩ else none⟩

/-- A world that no ray hits. -/
def world_empty {K M : Type} : hittable K M := ⟨fun _ _ _ => none⟩

/-- A material that scatters every ray upwards from the hit point, with
attenuation `(1/2, 1/2, 1/2)`, and draws once from the random source (a
counter). -/
def material_scattering {K M : Type} [LinearOrderedField K] : material K M Nat :=
  ⟨fun _ rec g => (some (⟨1 / 2, 1 / 2, 1 / 2⟩, ⟨rec.p, ⟨0, 1, 0⟩⟩), g + 1)⟩

/-- A ray whose direction is the zero vector. -/
def ray_degenerate {K : Type} [LinearOrderedField K] : ray K := ⟨⟨0, 0, 0⟩, ⟨0, 0, 0⟩⟩

/-- A random source that always draws `1/2` and counts its draws. -/
def random_half {K : Type} [LinearOrderedField K] : Nat → K × Nat := fun g => (1 / 2, g + 1)

/-- A camera that sends every sample along the scenario ray. -/
def camera_fixed {K : Type} [LinearOrderedField K] : camera K Nat :=
  ⟨fun _ _ g => (⟨⟨0, 0, -5⟩, ⟨0, 0, 1⟩⟩, g + 1)⟩

/-- A material that absorbs every ray, and draws once from the random source. -/
def material_absorbing {K M : Type} : material K M Nat :=
  ⟨fun _ _ g => (none, g + 1)⟩

/-- The ray of the spec's scenario: origin `(0,0,-5)`, direction `(0,0,1)`. -/
def ray_scenario {K : Type} [LinearOrderedField K] : ray K := ⟨⟨0, 0, -5⟩, ⟨0, 0, 1⟩⟩

/-- A ray from the origin looking straight down: direction `(0,-1,0)`. -/
def ray_down {K : Type} [LinearOrderedField K] : ray K := ⟨⟨0, 0, 0⟩, ⟨0, -1, 0⟩⟩

/-- A ray that passes the unit sphere at the origin: origin `(0,0,-5)`,
direction `(0,1,0)`. -/
def ray_passing {K : Type} [LinearOrderedField K] : ray K := ⟨⟨0, 0, -5⟩, ⟨0, 1, 0⟩⟩

/-- A ray that starts at the origin, inside the unit sphere: direction `(0,0,1)`. -/
def ray_inside {K : Type} [LinearOrderedField K] : ray K := ⟨⟨0, 0, 0⟩, ⟨0, 0, 1⟩⟩

/-! ## Component lemmas -/

section lemmas

variable {K : Type}

@[simp] theorem vec3.add_def [Add K] (u v : vec3 K) :
    u + v = ⟨u.x + v.x, u.y + v.y, u.z + v.z⟩ := rfl

@[simp] theorem vec3.sub_def [Sub K] (u v : vec3 K) :
    u - v = ⟨u.x - v.x, u.y - v.y, u.z - v.z⟩ := rfl

@[simp] theorem vec3.mul_def [Mul K] (u v : vec3 K) :
    u * v = ⟨u.x * v.x, u.y * v.y, u.z * v.z⟩ := rfl

@[simp] theorem vec3.smul_def [Mul K] (t : K) (v : vec3 K) :
    t * v = (⟨t * v.x, t * v.y, t * v.z⟩ : vec3 K) := rfl

/-- One step of `ray_color`: the body of the function. -/
theorem ray_color_unfold {M G : Type} [LinearOrderedField K] (sqrt : K → K)
    (deref : M → material K M G) (r : ray K) (world : hittable K M) (depth : Int) (g : G) :
    ray_color sqrt deref r world depth g =
      if depth ≤ 0 then
        (some ⟨0, 0, 0⟩, g)
      else
        match world.hit r 0.001 ⊤ with
        | some rec =>
          match (deref rec.mat_ptr).scatter r rec g with
          | (some (attenuation, scattered), g1) =>
            ((ray_color sqrt deref scattered world (depth - 1) g1).1.map fun c => attenuation * c,
              (ray_color sqrt deref scattered world (depth - 1) g1).2)
          | (none, g1) => (some ⟨0, 0, 0⟩, g1)
        | none =>
          ((unit_vector sqrt r.direction).map fun unit_direction =>
              let t : K := 0.5 * (unit_direction.y + 1.0)
              ((1.0 - t) * (⟨1.0, 1.0, 1.0⟩ : color K) : color K)
                + (t * (⟨0.5, 0.7, 1.0⟩ : color K) : color K),
            g) := by
  rw [ray_color]

theorem length_squared_nonneg [LinearOrderedField K] (v : vec3 K) :
    0 ≤ length_squared v := by
  unfold length_squared
  nlinarith [mul_self_nonneg v.x, mul_self_nonneg v.y, mul_self_nonneg v.z]

theorem length_squared_eq_zero_iff [LinearOrderedField K] (v : vec3 K) :
    length_squared v = 0 ↔ v = ⟨0, 0, 0⟩ := by
  constructor
  · intro h
    unfold length_squared at h
    have hx : v.x = 0 := by
      nlinarith [mul_self_nonneg v.x, mul_self_nonneg v.y, mul_self_nonneg v.z]
    have hy : v.y = 0 := by
      nlinarith [mul_self_nonneg v.x, mul_self_nonneg v.y, mul_self_nonneg v.z]
    have hz : v.z = 0 := by
      nlinarith [mul_self_nonneg v.x, mul_self_nonneg v.y, mul_self_nonneg v.z]
    ext <;> assumption
  · intro h
    subst h
    simp [length_squared]

/-- The body of `hit_sphere`, with its discriminant named. -/
theorem hit_sphere_unfold [LinearOrderedField K] (sqrt : K → K)
    (center : point3 K) (radius : K) (r : ray K) :
    hit_sphere sqrt center radius r =
      if discriminant center radius r < 0 then some (-1)
      else (checked_sqrt sqrt (discriminant center radius r)).bind fun s =>
        checked_div (-(dot (r.origin - center) r.direction) - s) r.direction.length_squared := by
  unfold hit_sphere discriminant
  norm_num

/-- The value of `hit_sphere` on a ray of non-zero direction whose
discriminant is not negative: the smaller root. -/
theorem hit_sphere_eq_of_disc_nonneg [LinearOrderedField K] (sqrt : K → K)
    (center : point3 K) (radius : K) (r : ray K)
    (hdir : r.direction ≠ ⟨0, 0, 0⟩) (hdisc : 0 ≤ discriminant center radius r) :
    hit_sphere sqrt center radius r =
      some ((-(dot (r.origin - center) r.direction)
        - sqrt (discriminant center radius r)) / r.direction.length_squared) := by
  have ha : r.direction.length_squared ≠ 0 := fun h => hdir ((length_squared_eq_zero_iff _).1 h)
  rw [hit_sphere_unfold, if_neg (not_lt.mpr hdisc)]
  simp [checked_sqrt, checked_div, not_lt.mpr hdisc, ha]

/-- Algebra of a root: with `a*t = -half_b - s` and `s*s = discriminant`, the
point at parameter `t` is on the sphere. -/
theorem on_sphere_of_root [LinearOrderedField K] (center : point3 K) (radius : K)
    (r : ray K) (s t : K) (ha : r.direction.length_squared ≠ 0)
    (hk : r.direction.length_squared * t = -(dot (r.origin - center) r.direction) - s)
    (hs : s * s = discriminant center radius r) :
    length_squared (r.at t - center) = radius ^ 2 := by
  obtain ⟨⟨ox, oy, oz⟩, ⟨dx, dy, dz⟩⟩ := r
  obtain ⟨cx, cy, cz⟩ := center
  simp only [discriminant, ray.origin, ray.direction, ray.at, dot, length_squared, vec3.sub_def,
    vec3.add_def, vec3.smul_def] at *
  apply mul_left_cancel₀ ha
  linear_combination
    ((dx * dx + dy * dy + dz * dz) * t
      + (-((ox - cx) * dx + (oy - cy) * dy + (oz - cz) * dz) - s)
      + 2 * ((ox - cx) * dx + (oy - cy) * dy + (oz - cz) * dz)) * hk + hs

/-- Over the reals, the smaller root that `hit_sphere` returns is the
parameter of a point of the sphere. -/
theorem hit_sphere_root (center : point3 ℝ) (radius : ℝ) (r : ray ℝ)
    (hdir : r.direction ≠ ⟨0, 0, 0⟩) (hdisc : 0 ≤ discriminant center radius r) :
    ∃ t, hit_sphere Real.sqrt center radius r = some t ∧
      length_squared (r.at t - center) = radius ^ 2 := by
  have ha : r.direction.length_squared ≠ 0 := fun h => hdir ((length_squared_eq_zero_iff _).1 h)
  refine ⟨_, hit_sphere_eq_of_disc_nonneg Real.sqrt center radius r hdir hdisc, ?_⟩
  exact on_sphere_of_root center radius r (Real.sqrt (discriminant center radius r)) _ ha
    (by field_simp) (Real.mul_self_sqrt hdisc)

end lemmas

section recursion

variable {K M G : Type} [LinearOrderedField K]

/-- The background of the spec is the expression of the last branch of `ray_color`. -/
theorem background_eq (sqrt : K → K) (r : ray K) :
    background sqrt r = (unit_vector sqrt r.direction).map fun unit_direction =>
          let t : K := 0.5 * (unit_direction.y + 1.0)
          ((1.0 - t) * (⟨1.0, 1.0, 1.0⟩ : color K) : color K)
            + (t * (⟨0.5, 0.7, 1.0⟩ : color K) : color K) := by
  unfold background
  norm_num

/-- The loop with `n` iterations left and product `product` computes
`product * ray_color` for every `depth` with `depth.toNat = n`. -/
theorem ray_color_loop_iter_eq (sqrt : K → K) (deref : M → material K M G)
    (world : hittable K M) (n : Nat) :
    ∀ (product : color K) (r : ray K) (depth : Int) (g : G), depth.toNat = n →
      ray_color_loop_iter sqrt deref world n product r g =
        ((ray_color sqrt deref r world depth g).1.map fun c => product * c,
          (ray_color sqrt deref r world depth g).2) := by
  induction n with
  | zero =>
    intro product r depth g hn
    have hd : depth ≤ 0 := by omega
    rw [ray_color_unfold, if_pos hd]
    simp [ray_color_loop_iter]
  | succ n ih =>
    intro product r depth g hn
    have hd : ¬ depth ≤ 0 := by omega
    rw [ray_color_unfold, if_neg hd, ray_color_loop_iter]
    cases hh : world.hit r 0.001 ⊤ with
    | none =>
      simp only [background_eq]
    | some rec =>
      simp only []
      rcases hs : (deref rec.mat_ptr).scatter r rec g with ⟨_ | ⟨attenuation, scattered⟩, g1⟩
      · simp
      · simp only []
        rw [ih (product * attenuation) scattered (depth - 1) g1 (by omega)]
        simp [Option.map_map, Function.comp_def, mul_assoc]

/-- The depths `depth - 1, depth - 2, ...` of a chain of calls, one call longer. -/
theorem range_map_cons (depth : Int) (l : Nat) :
    (depth - 1) :: (List.range l).map (fun i : Nat => depth - 1 - 1 - (i : Int)) =
      (List.range (l + 1)).map (fun i : Nat => depth - 1 - (i : Int)) := by
  rw [List.range_succ_eq_map, List.map_cons, List.map_map]
  congr 1
  · simp
  · apply List.map_congr_left
    intro i _
    simp only [Function.comp_apply, Nat.cast_succ]
    ring

/-- A budget of `depth.toNat` nested calls is enough for `ray_color`, and the
recursive calls made have the depths `depth - 1, depth - 2, ...`, none negative. -/
theorem ray_color_fuel_eq (sqrt : K → K) (deref : M → material K M G)
    (world : hittable K M) (fuel : Nat) :
    ∀ (r : ray K) (depth : Int) (g : G), depth.toNat ≤ fuel →
      ∃ calls : List Int,
        ray_color_fuel sqrt deref fuel r world depth g
          = some (ray_color sqrt deref r world depth g, calls) ∧
        calls.length ≤ depth.toNat ∧
        calls = (List.range calls.length).map (fun i : Nat => depth - 1 - (i : Int)) ∧
        ∀ d ∈ calls, 0 ≤ d := by
  induction fuel with
  | zero =>
    intro r depth g hn
    have hd : depth ≤ 0 := by omega
    refine ⟨[], ?_, by simp, by simp, by simp⟩
    rw [ray_color_unfold, if_pos hd, ray_color_fuel, if_pos hd]
  | succ n ih =>
    intro r depth g hn
    by_cases hd : depth ≤ 0
    · refine ⟨[], ?_, by simp, by simp, by simp⟩
      rw [ray_color_unfold, if_pos hd, ray_color_fuel, if_pos hd]
    · rw [ray_color_unfold, if_neg hd, ray_color_fuel, if_neg hd]
      cases hh : world.hit r 0.001 ⊤ with
      | none => exact ⟨[], by simp, by simp, by simp, by simp⟩
      | some rec =>
        simp only []
        rcases hs : (deref rec.mat_ptr).scatter r rec g with ⟨_ | ⟨attenuation, scattered⟩, g1⟩
        · exact ⟨[], by simp, by simp, by simp, by simp⟩
        · obtain ⟨calls, h1, h2, h3, h4⟩ := ih scattered (depth - 1) g1 (by omega)
          refine ⟨(depth - 1) :: calls, ?_, ?_, ?_, ?_⟩
          · simp only [h1, Option.map_some']
          · simp only [List.length_cons]
            omega
          · rw [List.length_cons, ← range_map_cons, ← h3]
          · intro d hdm
            rcases List.mem_cons.1 hdm with h | h
            · omega
            · exact h4 d h

/-- The budget is counted: in a world where every ray hits and every material
scatters, two nested calls do not cover `depth = 3`, and three do. -/
theorem ray_color_fuel_budget :
    ray_color_fuel (fun x : ℚ => x) (fun _ : Unit => material_scattering) 2 ray_scenario
        (world_always_hit ()) 3 0 = none ∧
    ray_color_fuel (fun x : ℚ => x) (fun _ : Unit => material_scattering) 3 ray_scenario
        (world_always_hit ()) 3 0 = some ((some ⟨0, 0, 0⟩, 3), [2, 1, 0]) := by
  constructor
  · decide
  · norm_num [ray_color_fuel, world_always_hit, material_scattering, ray_scenario]

end recursion

section range
variable {M G : Type}

/-- Black lies in `[0,1]` per channel. -/
theorem in_unit_range_zero {K : Type} [LinearOrderedField K] :
    in_unit_range (⟨0, 0, 0⟩ : color K) := by
  simp [in_unit_range]

/-- A component-wise product of two colours in `[0,1]` lies in `[0,1]`. -/
theorem in_unit_range_mul {K : Type} [LinearOrderedField K] (a c : color K)
    (ha : in_unit_range a) (hc : in_unit_range c) : in_unit_range (a * c) := by
  obtain ⟨⟨a1, a2⟩, ⟨a3, a4⟩, a5, a6⟩ := ha
  obtain ⟨⟨c1, c2⟩, ⟨c3, c4⟩, c5, c6⟩ := hc
  simp only [in_unit_range, vec3.mul_def]
  have key : ∀ x y : K, x ≤ 1 → 0 ≤ y → y ≤ 1 → x * y ≤ 1 := fun x y hx hy hy1 =>
    le_trans (mul_le_mul hx hy1 hy zero_le_one) (by simp)
  exact ⟨⟨mul_nonneg a1 c1, key _ _ a2 c1 c2⟩, ⟨mul_nonneg a3 c3, key _ _ a4 c3 c4⟩,
    mul_nonneg a5 c5, key _ _ a6 c5 c6⟩

/-- Over the reals a vector has length zero only if it is the zero vector. -/
theorem length_eq_zero_iff (v : vec3 ℝ) : length Real.sqrt v = 0 ↔ v = ⟨0, 0, 0⟩ := by
  unfold length
  rw [Real.sqrt_eq_zero (length_squared_nonneg v), length_squared_eq_zero_iff]

/-- The `y` component of a unit vector lies in `[-1, 1]`. -/
theorem unit_vector_y_bounds (v u : vec3 ℝ) (h : unit_vector Real.sqrt v = some u) :
    -1 ≤ u.y ∧ u.y ≤ 1 := by
  unfold unit_vector at h
  split at h
  · exact absurd h (by simp)
  · rename_i hl
    have hu : u = sdiv v (length Real.sqrt v) := (Option.some.inj h).symm
    have hpos : 0 < length Real.sqrt v :=
      lt_of_le_of_ne (Real.sqrt_nonneg _) (Ne.symm hl)
    have habs : |v.y| ≤ length Real.sqrt v := by
      apply Real.abs_le_sqrt
      unfold length_squared
      nlinarith [mul_self_nonneg v.x, mul_self_nonneg v.z]
    have h2 := abs_le.1 habs
    subst hu
    simp only [sdiv]
    constructor
    · rw [le_div_iff₀ hpos]; linarith [h2.1]
    · rw [div_le_one hpos]; exact h2.2

/-- The background colour, where it has a value, lies in `[0,1]` per channel. -/
theorem background_in_unit_range (r : ray ℝ) (c : color ℝ)
    (h : background Real.sqrt r = some c) : in_unit_range c := by
  unfold background at h
  rcases hu : unit_vector Real.sqrt r.direction with _ | u
  · rw [hu] at h; exact absurd h (by simp)
  · rw [hu] at h
    obtain ⟨h1, h2⟩ := unit_vector_y_bounds _ _ hu
    have hc := (Option.some.inj h).symm
    subst hc
    simp only [in_unit_range, vec3.add_def, vec3.smul_def]
    norm_num
    refine ⟨⟨?_, ?_⟩, ⟨?_, ?_⟩⟩ <;> linarith

/-- The background colour has no value exactly for a ray whose direction is
the zero vector. -/
theorem background_eq_none_iff (r : ray ℝ) :
    background Real.sqrt r = none ↔ r.direction = ⟨0, 0, 0⟩ := by
  unfold background unit_vector
  rw [Option.map_eq_none']
  constructor
  · intro h
    by_contra hr
    rw [if_neg (fun hl => hr ((length_eq_zero_iff _).1 hl))] at h
    exact absurd h (by simp)
  · intro h
    rw [if_pos ((length_eq_zero_iff _).2 h)]

/-- Where `ray_color` has a value, the value lies in `[0,1]` per channel, when
the attenuations do. -/
theorem ray_color_in_range_aux (deref : M → material ℝ M G) (world : hittable ℝ M)
    (hatt : ∀ m r rec g g1 att sc, (deref m).scatter r rec g = (some (att, sc), g1) →
      in_unit_range att) (n : Nat) :
    ∀ (r : ray ℝ) (depth : Int) (g : G) (c : color ℝ), depth.toNat = n →
      (ray_color Real.sqrt deref r world depth g).1 = some c → in_unit_range c := by
  induction n with
  | zero =>
    intro r depth g c hn
    have hd : depth ≤ 0 := by omega
    rw [ray_color_unfold, if_pos hd]
    intro h
    rw [← Option.some.inj h]
    exact in_unit_range_zero
  | succ n ih =>
    intro r depth g c hn
    have hd : ¬ depth ≤ 0 := by omega
    rw [ray_color_unfold, if_neg hd]
    cases hh : world.hit r 0.001 ⊤ with
    | none =>
      simp only [← background_eq]
      exact background_in_unit_range r c
    | some rec =>
      simp only []
      rcases hs : (deref rec.mat_ptr).scatter r rec g with ⟨_ | ⟨attenuation, scattered⟩, g1⟩
      · simp only []
        intro h
        rw [← Option.some.inj h]
        exact in_unit_range_zero
      · simp only [Option.map_eq_some']
        rintro ⟨c1, hc1, rfl⟩
        exact in_unit_range_mul _ _ (hatt _ _ _ _ _ _ _ hs)
          (ih scattered (depth - 1) g1 c1 (by omega) hc1)

/-- One step of `ray_color_missed`: the body of the function. -/
theorem ray_color_missed_unfold {K : Type} [LinearOrderedField K]
    (deref : M → material K M G) (r : ray K) (world : hittable K M) (depth : Int) (g : G) :
    ray_color_missed deref r world depth g =
      if depth ≤ 0 then
        none
      else
        match world.hit r 0.001 ⊤ with
        | some rec =>
          match (deref rec.mat_ptr).scatter r rec g with
          | (some (_, scattered), g1) => ray_color_missed deref scattered world (depth - 1) g1
          | (none, _) => none
        | none => some r := by
  rw [ray_color_missed]
  split
  · rfl
  · cases world.hit r 0.001 ⊤ with
    | none => rfl
    | some rec =>
      simp only []
      rcases (deref rec.mat_ptr).scatter r rec g with ⟨_ | ⟨attenuation, scattered⟩, g1⟩ <;> rfl

/-- The colour `ray_color` has no value exactly when the evaluation ends on a
miss by a ray whose direction is the zero vector. -/
theorem ray_color_none_iff_aux (deref : M → material ℝ M G) (world : hittable ℝ M) (n : Nat) :
    ∀ (r : ray ℝ) (depth : Int) (g : G), depth.toNat = n →
      ((ray_color Real.sqrt deref r world depth g).1 = none ↔
        ∃ r1, ray_color_missed deref r world depth g = some r1 ∧
          r1.direction = ⟨0, 0, 0⟩) := by
  induction n with
  | zero =>
    intro r depth g hn
    have hd : depth ≤ 0 := by omega
    rw [ray_color_unfold, ray_color_missed_unfold, if_pos hd, if_pos hd]
    simp
  | succ n ih =>
    intro r depth g hn
    have hd : ¬ depth ≤ 0 := by omega
    rw [ray_color_unfold, ray_color_missed_unfold, if_neg hd, if_neg hd]
    cases hh : world.hit r 0.001 ⊤ with
    | none =>
      simp only [← background_eq, background_eq_none_iff, Option.some.injEq, exists_eq_left']
    | some rec =>
      simp only []
      rcases hs : (deref rec.mat_ptr).scatter r rec g with ⟨_ | ⟨attenuation, scattered⟩, g1⟩
      · simp
      · simp only [Option.map_eq_none']
        exact ih scattered (depth - 1) g1 (by omega)

/-- Once the accumulated colour has no value, it has none at the end of the loop. -/
theorem sample_loop_none (random_double : G → ℝ × G) (cam : camera ℝ G)
    (deref : M → material ℝ M G) (world : hittable ℝ M) (max_depth i j : Int) (n : Nat) :
    ∀ g : G,
      (sample_loop Real.sqrt random_double cam deref world max_depth i j n none g).1 = none := by
  induction n with
  | zero => intro g; rfl
  | succ n ih =>
    intro g
    rw [sample_loop]
    exact ih _

/-- The accumulated colour has no value at the end of the loop exactly when
it had none at the start or one of the samples has none. -/
theorem sample_loop_none_iff (random_double : G → ℝ × G) (cam : camera ℝ G)
    (deref : M → material ℝ M G) (world : hittable ℝ M) (max_depth i j : Int) (n : Nat) :
    ∀ (acc : Option (color ℝ)) (g : G),
      (sample_loop Real.sqrt random_double cam deref world max_depth i j n acc g).1 = none ↔
        acc = none ∨
          none ∈ sample_colors Real.sqrt random_double cam deref world max_depth i j n g := by
  induction n with
  | zero =>
    intro acc g
    simp [sample_loop, sample_colors]
  | succ n ih =>
    intro acc g
    rw [sample_loop, sample_colors, ih, List.mem_cons]
    rcases acc with _ | p
    · simp [accumulate]
    · rcases hc : (ray_color Real.sqrt deref
          (cam.get_ray (pixel_u i (random_double g).1)
            (pixel_v j (random_double (random_double g).2).1)
            (random_double (random_double g).2).2).1 world max_depth
          (cam.get_ray (pixel_u i (random_double g).1)
            (pixel_v j (random_double (random_double g).2).1)
            (random_double (random_double g).2).2).2).1 with _ | c
      · simp [accumulate]
      · simp [accumulate]

/-- The samples of a pixel: when every colour that `ray_color` returns lies
in `[0,1]`, `n` more iterations add at most `n` to every channel of an
accumulated colour that has a value at the end. -/
theorem sample_loop_within (random_double : G → ℝ × G) (cam : camera ℝ G)
    (deref : M → material ℝ M G) (world : hittable ℝ M) (max_depth i j : Int)
    (hcolor : ∀ (r : ray ℝ) (g : G) (c : color ℝ),
      (ray_color Real.sqrt deref r world max_depth g).1 = some c → in_unit_range c) (n : Nat) :
    ∀ (p q : color ℝ) (b : ℝ) (g : G), channels_within b p →
      (sample_loop Real.sqrt random_double cam deref world max_depth i j n (some p) g).1
        = some q → channels_within (b + n) q := by
  induction n with
  | zero =>
    intro p q b g hp hq
    rw [sample_loop] at hq
    rw [← Option.some.inj hq]
    simpa using hp
  | succ n ih =>
    intro p q b g hp hq
    rw [sample_loop] at hq
    rcases hc : (ray_color Real.sqrt deref
        (cam.get_ray (pixel_u i (random_double g).1)
          (pixel_v j (random_double (random_double g).2).1)
          (random_double (random_double g).2).2).1 world max_depth
        (cam.get_ray (pixel_u i (random_double g).1)
          (pixel_v j (random_double (random_double g).2).1)
          (random_double (random_double g).2).2).2).1 with _ | c
    · have h0 : accumulate (some p) (none : Option (color ℝ)) = none := rfl
      rw [hc, h0, sample_loop_none] at hq
      exact absurd hq (by simp)
    · have h1 : accumulate (some p) (some c) = some (p + c) := rfl
      rw [hc, h1] at hq
      have hcr := hcolor _ _ c hc
      have hp1 : channels_within (b + 1) (p + c) := by
        obtain ⟨⟨p1, p2⟩, ⟨p3, p4⟩, p5, p6⟩ := hp
        obtain ⟨⟨c1, c2⟩, ⟨c3, c4⟩, c5, c6⟩ := hcr
        simp only [channels_within, vec3.add_def]
        refine ⟨⟨?_, ?_⟩, ⟨?_, ?_⟩, ?_, ?_⟩ <;> linarith
      have hqr := ih (p + c) q (b + 1) _ hp1 hq
      have : b + 1 + (n : ℝ) = b + ((n + 1 : ℕ) : ℝ) := by push_cast; ring
      rwa [this] at hqr

/-- In the one-bounce world with the scattering material, the scenario ray
hits, is scattered upwards from `(0,0,0)` and then misses: the colour is half
of the sky colour `(0.5, 0.7, 1.0)`, for every depth of at least 2. -/
theorem ray_color_one_bounce (depth : Int) (hdepth : 2 ≤ depth) (g : Nat) :
    ray_color Real.sqrt (fun _ : Unit => (material_scattering : material ℝ Unit Nat))
        ray_scenario (world_one_bounce ()) depth g = (some ⟨1 / 4, 7 / 20, 1 / 2⟩, g + 1) := by
  have hd : ¬ depth ≤ 0 := by omega
  have hd1 : ¬ depth - 1 ≤ 0 := by omega
  rw [ray_color_unfold, if_neg hd]
  simp only [world_one_bounce, ray_scenario, material_scattering]
  norm_num
  rw [ray_color_unfold, if_neg hd1]
  norm_num [unit_vector, length, length_squared, sdiv, ray.direction]

/-- In the one-bounce world the evaluation for the scenario ray ends on the
miss of the scattered ray, whose direction is `(0,1,0)`. -/
theorem ray_color_missed_one_bounce (depth : Int) (hdepth : 2 ≤ depth) (g : Nat) :
    ray_color_missed (fun _ : Unit => (material_scattering : material ℝ Unit Nat))
        ray_scenario (world_one_bounce ()) depth g = some ⟨⟨0, 0, 0⟩, ⟨0, 1, 0⟩⟩ := by
  have hd : ¬ depth ≤ 0 := by omega
  have hd1 : ¬ depth - 1 ≤ 0 := by omega
  rw [ray_color_missed_unfold, if_neg hd]
  simp only [world_one_bounce, ray_scenario, material_scattering]
  norm_num
  rw [ray_color_missed_unfold, if_neg hd1]
  norm_num

/-- In the one-bounce world every sample of the fixed camera has a colour. -/
theorem sample_colors_one_bounce (n : Nat) :
    ∀ g : Nat, none ∉ sample_colors Real.sqrt (random_half : Nat → ℝ × Nat) camera_fixed
      (fun _ : Unit => (material_scattering : material ℝ Unit Nat)) (world_one_bounce ())
      50 0 0 n g := by
  induction n with
  | zero => intro g; simp [sample_colors]
  | succ n ih =>
    intro g
    rw [sample_colors, List.mem_cons, not_or]
    have hc : ∀ u v g1, (camera_fixed : camera ℝ Nat).get_ray u v g1 = (ray_scenario, g1 + 1) :=
      fun _ _ _ => rfl
    simp only [hc, ray_color_one_bounce 50 (by decide)]
    exact ⟨by simp, ih _⟩

end range

/-! ## Claims -/

/-- C1: when `world.hit(r, 0.001, infinity)` reports a hit and `depth >= 1`,
`ray_color` is black if the hit material's scatter returns no scattered ray,
and otherwise the component-wise product of the returned attenuation and
`ray_color(scattered, world, depth - 1)` (evaluated in the state of the
random source that the scatter leaves). -/
theorem ray_color_on_hit {K M G : Type} [LinearOrderedField K] (sqrt : K → K)
    (deref : M → material K M G) (r : ray K) (world : hittable K M) (depth : Int) (g : G)
    (rec : hit_record K M) (hdepth : 1 ≤ depth) (hhit : world.hit r 0.001 ⊤ = some rec) :
    (∀ g1, (deref rec.mat_ptr).scatter r rec g = (none, g1) →
        ray_color sqrt deref r world depth g = (some ⟨0, 0, 0⟩, g1)) ∧
    (∀ attenuation scattered g1,
        (deref rec.mat_ptr).scatter r rec g = (some (attenuation, scattered), g1) →
        ray_color sqrt deref r world depth g =
          ((ray_color sqrt deref scattered world (depth - 1) g1).1.map fun c => attenuation * c,
            (ray_color sqrt deref scattered world (depth - 1) g1).2)) := by
  have hd : ¬ depth ≤ 0 := by omega
  constructor
  · intro g1 hs
    rw [ray_color_unfold, if_neg hd, hhit]
    simp only [hs]
  · intro attenuation scattered g1 hs
    rw [ray_color_unfold, if_neg hd, hhit]
    simp only [hs]

/-- Witness of C1: the scenario ray in a world where every ray hits a
scattering material, with `depth = 2`. -/
theorem ray_color_on_hit_witness :
    (1 : Int) ≤ 2 ∧
    (world_always_hit ()).hit (ray_scenario : ray ℝ) 0.001 ⊤
      = some ⟨⟨0, 0, -5⟩, ⟨0, 1, 0⟩, (), 1, true⟩ ∧
    ray_color Real.sqrt (fun _ : Unit => material_scattering) ray_scenario
        (world_always_hit ()) 2 0 =
      ((ray_color Real.sqrt (fun _ : Unit => material_scattering) ⟨⟨0, 0, -5⟩, ⟨0, 1, 0⟩⟩
          (world_always_hit ()) (2 - 1) 1).1.map fun c => (⟨1 / 2, 1 / 2, 1 / 2⟩ : color ℝ) * c,
        (ray_color Real.sqrt (fun _ : Unit => material_scattering) ⟨⟨0, 0, -5⟩, ⟨0, 1, 0⟩⟩
          (world_always_hit ()) (2 - 1) 1).2) :=
  ⟨by decide, rfl,
    (ray_color_on_hit Real.sqrt (fun _ : Unit => material_scattering) ray_scenario
      (world_always_hit ()) 2 0 ⟨⟨0, 0, -5⟩, ⟨0, 1, 0⟩, (), 1, true⟩ (by decide) rfl).2
      ⟨1 / 2, 1 / 2, 1 / 2⟩ ⟨⟨0, 0, -5⟩, ⟨0, 1, 0⟩⟩ 1 rfl⟩

/-- C2: when `world.hit(r, 0.001, infinity)` reports no hit and `depth >= 1`,
`ray_color` is `(1 - t)*(1,1,1) + t*(0.5,0.7,1.0)` with
`t = 0.5*(unit_vector(D).y + 1)` (and has no value where `unit_vector(D)` has
none); it is `(1,1,1)` when the unit direction is `(0,-1,0)` and
`(0.5,0.7,1.0)` when it is `(0,1,0)`. -/
theorem ray_color_on_miss {K M G : Type} [LinearOrderedField K] (sqrt : K → K)
    (deref : M → material K M G) (r : ray K) (world : hittable K M) (depth : Int) (g : G)
    (hdepth : 1 ≤ depth) (hmiss : world.hit r 0.001 ⊤ = none) :
    ray_color sqrt deref r world depth g =
      ((unit_vector sqrt r.direction).map fun u =>
          ((1 - 0.5 * (u.y + 1) : K) * (⟨1, 1, 1⟩ : color K) : color K)
            + ((0.5 * (u.y + 1) : K) * (⟨0.5, 0.7, 1.0⟩ : color K) : color K), g) ∧
    (unit_vector sqrt r.direction = some ⟨0, -1, 0⟩ →
      ray_color sqrt deref r world depth g = (some ⟨1, 1, 1⟩, g)) ∧
    (unit_vector sqrt r.direction = some ⟨0, 1, 0⟩ →
      ray_color sqrt deref r world depth g = (some ⟨0.5, 0.7, 1.0⟩, g)) := by
  have hd : ¬ depth ≤ 0 := by omega
  have h : ray_color sqrt deref r world depth g =
      ((unit_vector sqrt r.direction).map fun u =>
          ((1 - 0.5 * (u.y + 1) : K) * (⟨1, 1, 1⟩ : color K) : color K)
            + ((0.5 * (u.y + 1) : K) * (⟨0.5, 0.7, 1.0⟩ : color K) : color K), g) := by
    rw [ray_color_unfold, if_neg hd, hmiss]
    norm_num
  refine ⟨h, ?_, ?_⟩
  · intro hu
    rw [h, hu]
    norm_num
  · intro hu
    rw [h, hu]
    norm_num

/-- Witness of C2: a ray looking straight down in the empty world is white. -/
theorem ray_color_on_miss_witness :
    (1 : Int) ≤ 1 ∧
    (world_empty : hittable ℝ Unit).hit ray_down 0.001 ⊤ = none ∧
    ray_color Real.sqrt (fun _ : Unit => (material_absorbing : material ℝ Unit Nat)) ray_down
        world_empty 1 0 = (some ⟨1, 1, 1⟩, 0) :=
  ⟨by decide, rfl,
    (ray_color_on_miss Real.sqrt (fun _ : Unit => (material_absorbing : material ℝ Unit Nat))
      ray_down world_empty 1 0 (by decide) rfl).2.1
      (by simp [unit_vector, length, length_squared, sdiv, ray_down, ray.direction])⟩

/-- C3: for `depth <= 0`, `ray_color` is `(0,0,0)` for every ray and every
world; the random source is left as it was, and the result is the same in
any other world (the world is not consulted). -/
theorem ray_color_depth_exhausted {K M G : Type} [LinearOrderedField K] (sqrt : K → K)
    (deref : M → material K M G) (r : ray K) (world : hittable K M) (depth : Int) (g : G)
    (hdepth : depth ≤ 0) :
    ray_color sqrt deref r world depth g = (some ⟨0, 0, 0⟩, g) ∧
    ∀ (deref1 : M → material K M G) (world1 : hittable K M),
      ray_color sqrt deref1 r world1 depth g = ray_color sqrt deref r world depth g := by
  have h : ∀ (deref1 : M → material K M G) (world1 : hittable K M),
      ray_color sqrt deref1 r world1 depth g = (some ⟨0, 0, 0⟩, g) := by
    intro deref1 world1
    rw [ray_color_unfold, if_pos hdepth]
  exact ⟨h deref world, fun deref1 world1 => by rw [h deref1 world1, h deref world]⟩

/-- Witness of C3: `depth = 0` in a world where every ray hits and every
material scatters. -/
theorem ray_color_depth_exhausted_witness :
    (0 : Int) ≤ 0 ∧
    ray_color Real.sqrt (fun _ : Unit => (material_scattering : material ℝ Unit Nat))
        ray_scenario (world_always_hit ()) 0 7 = (some ⟨0, 0, 0⟩, 7) :=
  ⟨le_refl 0,
    (ray_color_depth_exhausted Real.sqrt
      (fun _ : Unit => (material_scattering : material ℝ Unit Nat))
      ray_scenario (world_always_hit ()) 0 7 (le_refl 0)).1⟩

/-- C4: for a ray of non-zero direction whose discriminant `half_b^2 - a*c`
is not negative, `hit_sphere` returns a value `t`, and the squared distance
from `r.at(t)` to the center equals `radius^2`, exactly, over the reals. -/
theorem hit_sphere_on_sphere (center : point3 ℝ) (radius : ℝ) (r : ray ℝ)
    (hdir : r.direction ≠ ⟨0, 0, 0⟩) (hdisc : 0 ≤ discriminant center radius r) :
    ∃ t, hit_sphere Real.sqrt center radius r = some t ∧
      length_squared (r.at t - center) = radius ^ 2 :=
  hit_sphere_root center radius r hdir hdisc

/-- Witness of C4: the unit sphere at the origin and the scenario ray. -/
theorem hit_sphere_on_sphere_witness :
    (ray_scenario : ray ℝ).direction ≠ ⟨0, 0, 0⟩ ∧
    0 ≤ discriminant ⟨0, 0, 0⟩ 1 (ray_scenario : ray ℝ) ∧
    ∃ t, hit_sphere Real.sqrt ⟨0, 0, 0⟩ 1 ray_scenario = some t ∧
      length_squared ((ray_scenario : ray ℝ).at t - ⟨0, 0, 0⟩) = 1 ^ 2 :=
  have hdir : (ray_scenario : ray ℝ).direction ≠ ⟨0, 0, 0⟩ := by
    simp [ray_scenario, ray.direction]
  have hdisc : 0 ≤ discriminant ⟨0, 0, 0⟩ 1 (ray_scenario : ray ℝ) := by
    norm_num [discriminant, ray_scenario, ray.direction, ray.origin, dot, length_squared]
  ⟨hdir, hdisc, hit_sphere_on_sphere ⟨0, 0, 0⟩ 1 ray_scenario hdir hdisc⟩

/-- C5: for the sphere with center `(0,0,0)` and radius `1` and the ray with
origin `(0,0,-5)` and direction `(0,0,1)`, `hit_sphere` returns `4`, and
`ray::at(4)` is the point `(0,0,-1)`. -/
theorem hit_sphere_scenario :
    hit_sphere Real.sqrt ⟨0, 0, 0⟩ 1 (⟨⟨0, 0, -5⟩, ⟨0, 0, 1⟩⟩ : ray ℝ) = some 4 ∧
    (⟨⟨0, 0, -5⟩, ⟨0, 0, 1⟩⟩ : ray ℝ).at 4 = ⟨0, 0, -1⟩ := by
  constructor
  · rw [hit_sphere_unfold]
    norm_num [discriminant, ray.direction, ray.origin, dot, length_squared, checked_sqrt,
      checked_div]
  · norm_num [ray.at]

/-- C6: for a ray of non-zero direction, if no real `t` puts `r.at(t)` on the
sphere (squared distance to the center equal to `radius^2`; for
`radius >= 0` this is: at distance `radius` from the center), the
discriminant is negative and `hit_sphere` returns `-1.0`; it does so whatever
`sqrt` is, and returns a value: no square root of a negative number is taken. -/
theorem hit_sphere_no_hit (sqrt : ℝ → ℝ) (center : point3 ℝ) (radius : ℝ) (r : ray ℝ)
    (hdir : r.direction ≠ ⟨0, 0, 0⟩) :
    ((∀ t : ℝ, length_squared (r.at t - center) ≠ radius ^ 2) →
      discriminant center radius r < 0 ∧ hit_sphere sqrt center radius r = some (-1.0)) ∧
    (0 ≤ radius → (∀ t : ℝ, length Real.sqrt (r.at t - center) ≠ radius) →
      discriminant center radius r < 0 ∧ hit_sphere sqrt center radius r = some (-1.0)) := by
  have key : (∀ t : ℝ, length_squared (r.at t - center) ≠ radius ^ 2) →
      discriminant center radius r < 0 ∧ hit_sphere sqrt center radius r = some (-1.0) := by
    intro hmiss
    have hneg : discriminant center radius r < 0 := by
      by_contra h
      obtain ⟨t, -, ht⟩ := hit_sphere_root center radius r hdir (not_lt.mp h)
      exact hmiss t ht
    refine ⟨hneg, ?_⟩
    rw [hit_sphere_unfold, if_pos hneg]
    norm_num
  refine ⟨key, fun hR hmiss => key fun t ht => hmiss t ?_⟩
  rw [length, ht, Real.sqrt_sq hR]

/-- Witness of C6: the unit sphere at the origin and a ray that passes it. -/
theorem hit_sphere_no_hit_witness :
    (ray_passing : ray ℝ).direction ≠ ⟨0, 0, 0⟩ ∧
    (∀ t : ℝ, length_squared ((ray_passing : ray ℝ).at t - ⟨0, 0, 0⟩) ≠ 1 ^ 2) ∧
    hit_sphere Real.sqrt ⟨0, 0, 0⟩ 1 (ray_passing : ray ℝ) = some (-1.0) :=
  have hdir : (ray_passing : ray ℝ).direction ≠ ⟨0, 0, 0⟩ := by
    simp [ray_passing, ray.direction]
  have hmiss : ∀ t : ℝ, length_squared ((ray_passing : ray ℝ).at t - ⟨0, 0, 0⟩) ≠ 1 ^ 2 := by
    intro t h
    simp only [ray_passing, ray.at, length_squared, vec3.sub_def, vec3.add_def,
      vec3.smul_def] at h
    nlinarith [mul_self_nonneg t]
  ⟨hdir, hmiss, ((hit_sphere_no_hit Real.sqrt ⟨0, 0, 0⟩ 1 ray_passing hdir).1 hmiss).2⟩

/-- C7: `ray::at(t)` is `A + t*b` component-wise; `at(0)` is the origin, and
`at(s + t) - at(s) = t*b`. -/
theorem ray_at_spec {K : Type} [Field K] (A : point3 K) (b : vec3 K) (s t : K) :
    (ray.mk A b).at t = ⟨A.x + t * b.x, A.y + t * b.y, A.z + t * b.z⟩ ∧
    (ray.mk A b).at 0 = (ray.mk A b).origin ∧
    (ray.mk A b).at (s + t) - (ray.mk A b).at s = t * b := by
  refine ⟨rfl, ?_, ?_⟩
  · ext <;> simp [ray.at, ray.origin]
  · ext <;> simp [ray.at] <;> ring

/-- C8, amended: in a world where every attenuation returned by a scatter has
its three channels in `[0,1]`, for every ray and every integer depth each
channel of `ray_color` lies in `[0,1]`, unless the evaluation ends on a miss
by a ray (the given one or the last scattered one) whose direction is the
zero vector: exactly then the colour has no value.  Consequently the
accumulated sum of the `N` samples of a pixel divided by `N` lies in `[0,1]`
per channel, unless `N = 0` or one of the samples has no value: exactly then
the average has none. -/
theorem ray_color_in_unit_range {M G : Type} (deref : M → material ℝ M G)
    (world : hittable ℝ M)
    (hatt : ∀ m r rec g g1 att sc, (deref m).scatter r rec g = (some (att, sc), g1) →
      in_unit_range att) :
    (∀ (r : ray ℝ) (depth : Int) (g : G),
      ((ray_color Real.sqrt deref r world depth g).1 = none ↔
        ∃ r1, ray_color_missed deref r world depth g = some r1 ∧
          r1.direction = ⟨0, 0, 0⟩) ∧
      ∀ c : color ℝ, (ray_color Real.sqrt deref r world depth g).1 = some c →
        in_unit_range c) ∧
    (∀ (random_double : G → ℝ × G) (cam : camera ℝ G) (max_depth i j : Int) (N : Nat) (g : G),
      (pixel_average (sample_loop Real.sqrt random_double cam deref world max_depth i j
          N (some ⟨0, 0, 0⟩) g).1 (N : Int) = none ↔
        N = 0 ∨
          none ∈ sample_colors Real.sqrt random_double cam deref world max_depth i j N g) ∧
      ∀ avg : color ℝ,
        pixel_average (sample_loop Real.sqrt random_double cam deref world max_depth i j
          N (some ⟨0, 0, 0⟩) g).1 (N : Int) = some avg → in_unit_range avg) := by
  have h1 : ∀ (r : ray ℝ) (depth : Int) (g : G) (c : color ℝ),
      (ray_color Real.sqrt deref r world depth g).1 = some c → in_unit_range c :=
    fun r depth g c => ray_color_in_range_aux deref world hatt depth.toNat r depth g c rfl
  refine ⟨fun r depth g =>
    ⟨ray_color_none_iff_aux deref world depth.toNat r depth g rfl, h1 r depth g⟩, ?_⟩
  intro random_double cam max_depth i j N g
  constructor
  · rw [pixel_average]
    by_cases hN : N = 0
    · simp [hN]
    · have hN0 : (N : Int) ≠ 0 := by omega
      rw [if_neg hN0, Option.map_eq_none', sample_loop_none_iff]
      simp [hN]
  · intro avg havg
    rw [pixel_average] at havg
    by_cases hN : N = 0
    · rw [if_pos (by omega)] at havg
      exact absurd havg (by simp)
    · have hN0 : (N : Int) ≠ 0 := by omega
      have hNpos : (0 : ℝ) < (N : ℝ) := by exact_mod_cast Nat.pos_of_ne_zero hN
      rw [if_neg hN0, Option.map_eq_some'] at havg
      obtain ⟨q, hq, rfl⟩ := havg
      have hqr := sample_loop_within random_double cam deref world max_depth i j
        (fun r g1 c => h1 r max_depth g1 c) N ⟨0, 0, 0⟩ q 0 g (by simp [channels_within]) hq
      obtain ⟨⟨q1, q2⟩, ⟨q3, q4⟩, q5, q6⟩ := hqr
      rw [zero_add] at q2 q4 q6
      simp only [in_unit_range, sdiv, Int.cast_natCast]
      exact ⟨⟨div_nonneg q1 hNpos.le, (div_le_one hNpos).2 q2⟩,
        ⟨div_nonneg q3 hNpos.le, (div_le_one hNpos).2 q4⟩,
        div_nonneg q5 hNpos.le, (div_le_one hNpos).2 q6⟩

/-- Witness of C8: a world where the scenario ray hits a material that
scatters upwards with attenuation `(1/2, 1/2, 1/2)` and the scattered ray
misses, so that the background branch is taken, on a ray of direction
`(0,1,0)`: the colour at depth 50 is `(1/4, 7/20, 1/2)`, and the 100 samples
of the pixel `(0, 0)` have an average, all in `[0,1]`. -/
theorem ray_color_in_unit_range_witness :
    (∀ (m : Unit) (r : ray ℝ) (rec : hit_record ℝ Unit) (g g1 : Nat) (att : color ℝ)
        (sc : ray ℝ),
      ((fun _ : Unit => (material_scattering : material ℝ Unit Nat)) m).scatter r rec g
        = (some (att, sc), g1) → in_unit_range att) ∧
    ray_color_missed (fun _ : Unit => (material_scattering : material ℝ Unit Nat))
        ray_scenario (world_one_bounce ()) 50 0 = some ⟨⟨0, 0, 0⟩, ⟨0, 1, 0⟩⟩ ∧
    ((ray_color Real.sqrt (fun _ : Unit => (material_scattering : material ℝ Unit Nat))
        ray_scenario (world_one_bounce ()) 50 0).1 = some ⟨1 / 4, 7 / 20, 1 / 2⟩ ∧
      in_unit_range (⟨1 / 4, 7 / 20, 1 / 2⟩ : color ℝ)) ∧
    ∃ avg, pixel_average (sample_loop Real.sqrt random_half camera_fixed
        (fun _ : Unit => (material_scattering : material ℝ Unit Nat)) (world_one_bounce ())
        50 0 0 100 (some ⟨0, 0, 0⟩) 0).1 ((100 : Nat) : Int) = some avg ∧ in_unit_range avg :=
  have hatt : ∀ (m : Unit) (r : ray ℝ) (rec : hit_record ℝ Unit) (g g1 : Nat) (att : color ℝ)
      (sc : ray ℝ),
      ((fun _ : Unit => (material_scattering : material ℝ Unit Nat)) m).scatter r rec g
        = (some (att, sc), g1) → in_unit_range att := by
    intro m r rec g g1 att sc h
    simp only [material_scattering, Prod.mk.injEq, Option.some.injEq] at h
    rw [← h.1.1]
    norm_num [in_unit_range]
  have h := ray_color_in_unit_range
    (fun _ : Unit => (material_scattering : material ℝ Unit Nat)) (world_one_bounce ()) hatt
  have hc : (ray_color Real.sqrt (fun _ : Unit => (material_scattering : material ℝ Unit Nat))
      ray_scenario (world_one_bounce ()) 50 0).1 = some ⟨1 / 4, 7 / 20, 1 / 2⟩ := by
    rw [ray_color_one_bounce 50 (by decide)]
  have hp := h.2 random_half camera_fixed 50 0 0 100 0
  have hsome : ∃ avg, pixel_average (sample_loop Real.sqrt random_half camera_fixed
      (fun _ : Unit => (material_scattering : material ℝ Unit Nat)) (world_one_bounce ())
      50 0 0 100 (some ⟨0, 0, 0⟩) 0).1 ((100 : Nat) : Int) = some avg := by
    rw [← Option.isSome_iff_exists, ← Option.ne_none_iff_isSome]
    intro hnone
    rcases hp.1.1 hnone with h0 | hmem
    · exact absurd h0 (by decide)
    · exact sample_colors_one_bounce 100 0 hmem
  ⟨hatt, ray_color_missed_one_bounce 50 (by decide) 0,
    ⟨hc, (h.1 ray_scenario 50 0).2 _ hc⟩,
    hsome.elim fun avg havg => ⟨avg, havg, hp.2 avg havg⟩⟩

/-- Counterexample to C8 as stated: in the empty world with a material whose
attenuation is `(1/2, 1/2, 1/2)`, the ray of direction `(0,0,0)` misses, the
background branch normalises the zero vector, and `ray_color` has no value
in `[0,1]`. -/
theorem ray_color_zero_direction_no_value :
    (∀ (m : Unit) (r : ray ℝ) (rec : hit_record ℝ Unit) (g g1 : Nat) (att : color ℝ) (sc : ray ℝ),
      ((fun _ : Unit => (material_scattering : material ℝ Unit Nat)) m).scatter r rec g
        = (some (att, sc), g1) → in_unit_range att) ∧
    ¬ ∃ c, (ray_color Real.sqrt (fun _ : Unit => (material_scattering : material ℝ Unit Nat))
        ray_degenerate world_empty 1 0).1 = some c ∧ in_unit_range c := by
  constructor
  · intro m r rec g g1 att sc h
    simp only [material_scattering, Prod.mk.injEq, Option.some.injEq] at h
    rw [← h.1.1]
    norm_num [in_unit_range]
  · rintro ⟨c, hc, -⟩
    rw [ray_color_unfold] at hc
    simp [world_empty, unit_vector, length, length_squared, ray_degenerate, ray.direction] at hc

/-- C9: for every world, ray and depth, the recursive `ray_color` gives the
same colour (and leaves the random source in the same state) as the loop
that starts with the product `(1,1,1)`, runs at most `depth` iterations,
multiplies the product by each attenuation and finishes with
`product * background` on a miss, or black on absorption or at the end of the
depth budget. -/
theorem ray_color_eq_loop {K M G : Type} [LinearOrderedField K] (sqrt : K → K)
    (deref : M → material K M G) (r : ray K) (world : hittable K M) (depth : Int) (g : G) :
    ray_color sqrt deref r world depth g = ray_color_loop sqrt deref r world depth g := by
  rw [ray_color_loop, ray_color_loop_iter_eq sqrt deref world depth.toNat ⟨1, 1, 1⟩ r depth g rfl]
  rcases ray_color sqrt deref r world depth g with ⟨_ | c, g1⟩
  · rfl
  · simp

/-- C10: for every world, ray and integer depth, `ray_color` run with a
budget of `max(depth, 0)` nested recursive calls (or more) returns, with the
value of `ray_color`; the recursive calls it makes number at most
`max(depth, 0)`, their depths are `depth - 1, depth - 2, ...` in order of
nesting (each one less than its caller's), and none is negative (a call is
made only from a depth `>= 1`). -/
theorem ray_color_terminates {K M G : Type} [LinearOrderedField K] (sqrt : K → K)
    (deref : M → material K M G) (r : ray K) (world : hittable K M) (depth : Int) (g : G)
    (k : Nat) :
    ∃ calls : List Int,
      ray_color_fuel sqrt deref ((max depth 0).toNat + k) r world depth g
        = some (ray_color sqrt deref r world depth g, calls) ∧
      calls.length ≤ (max depth 0).toNat ∧
      calls = (List.range calls.length).map (fun i : Nat => depth - 1 - (i : Int)) ∧
      ∀ d ∈ calls, 0 ≤ d := by
  have hm : (max depth 0).toNat = depth.toNat := by
    rcases le_total depth 0 with h | h
    · rw [max_eq_right h]; omega
    · rw [max_eq_left h]
  rw [hm]
  exact ray_color_fuel_eq sqrt deref world (depth.toNat + k) r depth g (Nat.le_add_right _ _)

/-! ## Claims C11 to C15 -/

/-- The height of the image is `216`. -/
theorem image_height_eq : image_height = 216 := by
  have h : image_height = ⌊((384 : ℚ) / (16 / 9))⌋ := by
    simp only [image_height, image_width, aspect_ratio]
    rfl
  rw [h, Int.floor_eq_iff]
  constructor <;> norm_num

/-- Where the coordinates of the render loop lie: never below `0`, below
`image_width / (image_width - 1)` resp. `image_height / (image_height - 1)`,
and at most `1` on all columns but the last and all rows but the top one. -/
theorem pixel_uv_bounds (i j : Int) (d1 d2 : ℝ) (hi : 0 ≤ i ∧ i < image_width)
    (hj : 0 ≤ j ∧ j < image_height) (hd1 : 0 ≤ d1 ∧ d1 < 1) (hd2 : 0 ≤ d2 ∧ d2 < 1) :
    (0 ≤ pixel_u i d1 ∧ pixel_u i d1 < 384 / 383 ∧ (i < image_width - 1 → pixel_u i d1 ≤ 1)) ∧
    (0 ≤ pixel_v j d2 ∧ pixel_v j d2 < 216 / 215 ∧ (j < image_height - 1 → pixel_v j d2 ≤ 1)) := by
  rw [image_height_eq] at hj ⊢
  simp only [image_width] at hi ⊢
  have hi0 : (0 : ℝ) ≤ (i : ℝ) := by exact_mod_cast hi.1
  have hi1 : (i : ℝ) ≤ 383 := by
    have : i ≤ 383 := by omega
    exact_mod_cast this
  have hj0 : (0 : ℝ) ≤ (j : ℝ) := by exact_mod_cast hj.1
  have hj1 : (j : ℝ) ≤ 215 := by
    have : j ≤ 215 := by omega
    exact_mod_cast this
  have hu : pixel_u i d1 = ((i : ℝ) + d1) / 383 := by
    simp only [pixel_u, image_width]; norm_num
  have hv : pixel_v j d2 = ((j : ℝ) + d2) / 215 := by
    simp only [pixel_v, image_height_eq]; norm_num
  rw [hu, hv]
  refine ⟨⟨div_nonneg (by linarith [hd1.1]) (by norm_num), ?_, ?_⟩,
    ⟨div_nonneg (by linarith [hd2.1]) (by norm_num), ?_, ?_⟩⟩
  · rw [div_lt_div_iff₀ (by norm_num) (by norm_num)]; linarith [hd1.2]
  · intro h
    have h2 : (i : ℝ) ≤ 382 := by
      have : i ≤ 382 := by omega
      exact_mod_cast this
    rw [div_le_one (by norm_num)]; linarith [hd1.2]
  · rw [div_lt_div_iff₀ (by norm_num) (by norm_num)]; linarith [hd2.2]
  · intro h
    have h2 : (j : ℝ) ≤ 214 := by
      have : j ≤ 214 := by omega
      exact_mod_cast this
    rw [div_le_one (by norm_num)]; linarith [hd2.2]

/-- C11: the code at the last column `i = 383` and the top row `j = 215`
(both inside the render loop's ranges) with the draw `1/2`: `u = 767/766` and
`v = 431/430`, both above `1`, so the coordinates passed to `get_ray` are not
in `[0,1]` there. -/
theorem pixel_uv_exceed_one :
    ((0 : Int) ≤ 383 ∧ (383 : Int) < image_width) ∧
    ((0 : Int) ≤ 215 ∧ (215 : Int) < image_height) ∧
    ((0 : ℝ) ≤ 1 / 2 ∧ (1 / 2 : ℝ) < 1) ∧
    pixel_u 383 (1 / 2 : ℝ) = 767 / 766 ∧ pixel_v 215 (1 / 2 : ℝ) = 431 / 430 ∧
    ¬ pixel_u 383 (1 / 2 : ℝ) ≤ 1 ∧ ¬ pixel_v 215 (1 / 2 : ℝ) ≤ 1 := by
  have hu : pixel_u 383 (1 / 2 : ℝ) = 767 / 766 := by
    simp only [pixel_u, image_width]; norm_num
  have hv : pixel_v 215 (1 / 2 : ℝ) = 431 / 430 := by
    simp only [pixel_v, image_height_eq]; norm_num
  refine ⟨by decide, ⟨by decide, by rw [image_height_eq]; decide⟩, by norm_num, hu, hv, ?_, ?_⟩
  · rw [hu]; norm_num
  · rw [hv]; norm_num

section sphere_roots

/-- The point at parameter `t` is on the sphere exactly when `t` solves the
quadratic `a*t^2 + 2*half_b*t + c = 0` of `hit_sphere`. -/
theorem on_sphere_iff_quadratic {K : Type} [LinearOrderedField K] (center : point3 K)
    (radius : K) (r : ray K) (t : K) :
    length_squared (r.at t - center) = radius ^ 2 ↔
      r.direction.length_squared * t * t + 2 * dot (r.origin - center) r.direction * t
        + (length_squared (r.origin - center) - radius * radius) = 0 := by
  obtain ⟨⟨ox, oy, oz⟩, ⟨dx, dy, dz⟩⟩ := r
  obtain ⟨cx, cy, cz⟩ := center
  simp only [ray.origin, ray.direction, ray.at, dot, length_squared, vec3.sub_def,
    vec3.add_def, vec3.smul_def]
  constructor <;> intro h <;> linear_combination h

/-- A parameter of a point of the sphere is not below the smaller root. -/
theorem smaller_root_le {K : Type} [LinearOrderedField K] (center : point3 K) (radius : K)
    (r : ray K) (s t : K) (ha : 0 < r.direction.length_squared) (hs0 : 0 ≤ s)
    (hs : s * s = discriminant center radius r)
    (ht : length_squared (r.at t - center) = radius ^ 2) :
    (-(dot (r.origin - center) r.direction) - s) / r.direction.length_squared ≤ t := by
  rw [on_sphere_iff_quadratic] at ht
  rw [div_le_iff₀ ha]
  simp only [discriminant] at hs
  generalize r.direction.length_squared = a at *
  generalize dot (r.origin - center) r.direction = h at *
  generalize length_squared (r.origin - center) - radius * radius = c at *
  by_contra hlt
  push_neg at hlt
  have h1 : t * a + h < -s := by linarith
  have h2 : (t * a + h) * (t * a + h) = s * s := by
    rw [hs]; linear_combination a * ht
  nlinarith

end sphere_roots

/-- Over the reals, on a ray of non-zero direction with a discriminant that is
not negative, `hit_sphere` returns the smaller root: a parameter of a point of
the sphere that no other such parameter is below. -/
theorem hit_sphere_smaller_root (center : point3 ℝ) (radius : ℝ) (r : ray ℝ)
    (hdir : r.direction ≠ ⟨0, 0, 0⟩) (hdisc : 0 ≤ discriminant center radius r) :
    ∃ t, hit_sphere Real.sqrt center radius r = some t ∧
      length_squared (r.at t - center) = radius ^ 2 ∧
      ∀ t1 : ℝ, length_squared (r.at t1 - center) = radius ^ 2 → t ≤ t1 := by
  have ha0 : r.direction.length_squared ≠ 0 :=
    fun h => hdir ((length_squared_eq_zero_iff _).1 h)
  have ha : 0 < r.direction.length_squared :=
    lt_of_le_of_ne (length_squared_nonneg _) (Ne.symm ha0)
  refine ⟨_, hit_sphere_eq_of_disc_nonneg Real.sqrt center radius r hdir hdisc, ?_, ?_⟩
  · exact on_sphere_of_root center radius r (Real.sqrt (discriminant center radius r)) _ ha0
      (by field_simp) (Real.mul_self_sqrt hdisc)
  · intro t1 ht1
    exact smaller_root_le center radius r _ t1 ha (Real.sqrt_nonneg _)
      (Real.mul_self_sqrt hdisc) ht1

/-- The discriminant of a ray whose direction is scaled by `k` is scaled by `k^2`. -/
theorem discriminant_scale {K : Type} [LinearOrderedField K] (center : point3 K) (radius : K)
    (O : point3 K) (D : vec3 K) (k : K) :
    discriminant center radius ⟨O, k * D⟩ = k * k * discriminant center radius ⟨O, D⟩ := by
  simp only [discriminant, ray.origin, ray.direction, dot, length_squared, vec3.sub_def,
    vec3.smul_def]
  ring

/-- The value of `hit_sphere` for the unit sphere at the origin and the ray
from its center with direction `(0,0,1)`. -/
theorem hit_sphere_from_center :
    hit_sphere Real.sqrt ⟨0, 0, 0⟩ 1 (ray_inside : ray ℝ) = some (-1.0) := by
  rw [hit_sphere_unfold]
  norm_num [discriminant, ray_inside, ray.direction, ray.origin, dot, length_squared,
    checked_sqrt, checked_div]

/-- C12: for a ray of non-zero direction whose discriminant is not negative,
`hit_sphere` returns the first root in ascending order: every real `t1` for
which `r.at(t1)` lies on the sphere satisfies `hit_sphere(C, R, r) <= t1`. -/
theorem hit_sphere_first_root (center : point3 ℝ) (radius : ℝ) (r : ray ℝ)
    (hdir : r.direction ≠ ⟨0, 0, 0⟩) (hdisc : 0 ≤ discriminant center radius r) :
    ∃ t, hit_sphere Real.sqrt center radius r = some t ∧
      ∀ t1 : ℝ, length_squared (r.at t1 - center) = radius ^ 2 → t ≤ t1 := by
  obtain ⟨t, ht, -, hmin⟩ := hit_sphere_smaller_root center radius r hdir hdisc
  exact ⟨t, ht, hmin⟩

/-- Witness of C12: the unit sphere at the origin and the scenario ray. -/
theorem hit_sphere_first_root_witness :
    (ray_scenario : ray ℝ).direction ≠ ⟨0, 0, 0⟩ ∧
    0 ≤ discriminant ⟨0, 0, 0⟩ 1 (ray_scenario : ray ℝ) ∧
    ∃ t, hit_sphere Real.sqrt ⟨0, 0, 0⟩ 1 ray_scenario = some t ∧
      ∀ t1 : ℝ, length_squared ((ray_scenario : ray ℝ).at t1 - ⟨0, 0, 0⟩) = 1 ^ 2 → t ≤ t1 :=
  have hdir : (ray_scenario : ray ℝ).direction ≠ ⟨0, 0, 0⟩ := by
    simp [ray_scenario, ray.direction]
  have hdisc : 0 ≤ discriminant ⟨0, 0, 0⟩ 1 (ray_scenario : ray ℝ) := by
    norm_num [discriminant, ray_scenario, ray.direction, ray.origin, dot, length_squared]
  ⟨hdir, hdisc, hit_sphere_first_root ⟨0, 0, 0⟩ 1 ray_scenario hdir hdisc⟩

/-- C13, amended: for a ray of non-zero direction, if `hit_sphere` returns
`-1.0` then either the discriminant is negative (no point of the line is on
the sphere), or the discriminant is not negative and `-1` is the smaller
root: `r.at(-1)` lies on the sphere and no point of the sphere has a smaller
parameter. -/
theorem hit_sphere_minus_one (center : point3 ℝ) (radius : ℝ) (r : ray ℝ)
    (hdir : r.direction ≠ ⟨0, 0, 0⟩)
    (h : hit_sphere Real.sqrt center radius r = some (-1.0)) :
    discriminant center radius r < 0 ∨
      (0 ≤ discriminant center radius r ∧
        length_squared (r.at (-1) - center) = radius ^ 2 ∧
        ∀ t1 : ℝ, length_squared (r.at t1 - center) = radius ^ 2 → -1 ≤ t1) := by
  rcases lt_or_le (discriminant center radius r) 0 with hneg | hdisc
  · exact Or.inl hneg
  · right
    obtain ⟨t, ht, hon, hmin⟩ := hit_sphere_smaller_root center radius r hdir hdisc
    have ht1 : t = -1 := by
      rw [ht] at h
      have := Option.some.inj h
      rw [this]; norm_num
    subst ht1
    exact ⟨hdisc, hon, hmin⟩

/-- Witness of C13, amended: the unit sphere at the origin and the ray from
its center. -/
theorem hit_sphere_minus_one_witness :
    (ray_inside : ray ℝ).direction ≠ ⟨0, 0, 0⟩ ∧
    hit_sphere Real.sqrt ⟨0, 0, 0⟩ 1 (ray_inside : ray ℝ) = some (-1.0) ∧
    (discriminant ⟨0, 0, 0⟩ 1 (ray_inside : ray ℝ) < 0 ∨
      (0 ≤ discriminant ⟨0, 0, 0⟩ 1 (ray_inside : ray ℝ) ∧
        length_squared ((ray_inside : ray ℝ).at (-1) - ⟨0, 0, 0⟩) = 1 ^ 2 ∧
        ∀ t1 : ℝ, length_squared ((ray_inside : ray ℝ).at t1 - ⟨0, 0, 0⟩) = 1 ^ 2 →
          -1 ≤ t1)) :=
  have hdir : (ray_inside : ray ℝ).direction ≠ ⟨0, 0, 0⟩ := by
    simp [ray_inside, ray.direction]
  ⟨hdir, hit_sphere_from_center,
    hit_sphere_minus_one ⟨0, 0, 0⟩ 1 ray_inside hdir hit_sphere_from_center⟩

/-- Counterexample to C13 as stated: the unit sphere at the origin (radius
`1 > 0`) and the ray from its center with direction `(0,0,1)`: `hit_sphere`
returns `-1.0`, the discriminant is not negative, and `r.at(-1)` lies on the
sphere. -/
theorem hit_sphere_minus_one_is_a_root :
    (0 : ℝ) < 1 ∧ (ray_inside : ray ℝ).direction ≠ ⟨0, 0, 0⟩ ∧
    hit_sphere Real.sqrt ⟨0, 0, 0⟩ 1 (ray_inside : ray ℝ) = some (-1.0) ∧
    ¬ discriminant ⟨0, 0, 0⟩ 1 (ray_inside : ray ℝ) < 0 ∧
    length_squared ((ray_inside : ray ℝ).at (-1) - ⟨0, 0, 0⟩) = 1 ^ 2 := by
  refine ⟨one_pos, by simp [ray_inside, ray.direction], ?_, ?_, ?_⟩
  · exact hit_sphere_from_center
  · norm_num [discriminant, ray_inside, ray.direction, ray.origin, dot, length_squared]
  · norm_num [ray_inside, ray.at, length_squared]

/-- C14: for a non-zero direction `D` with a discriminant that is not negative
and `k > 0`, `hit_sphere` on `ray(O, k*D)` is `hit_sphere` on `ray(O, D)`
divided by `k`, and the two rays at their respective results are the same
point. -/
theorem hit_sphere_scale (center : point3 ℝ) (radius : ℝ) (O : point3 ℝ) (D : vec3 ℝ) (k : ℝ)
    (hD : D ≠ ⟨0, 0, 0⟩) (hdisc : 0 ≤ discriminant center radius ⟨O, D⟩) (hk : 0 < k) :
    ∃ t, hit_sphere Real.sqrt center radius ⟨O, D⟩ = some t ∧
      hit_sphere Real.sqrt center radius ⟨O, k * D⟩ = some (t / k) ∧
      (ray.mk O (k * D)).at (t / k) = (ray.mk O D).at t := by
  have hkD : (ray.mk O (k * D)).direction ≠ ⟨0, 0, 0⟩ := by
    intro h
    apply hD
    have h1 := congrArg vec3.x h
    have h2 := congrArg vec3.y h
    have h3 := congrArg vec3.z h
    simp only [ray.direction, vec3.smul_def, mul_eq_zero, hk.ne', false_or] at h1 h2 h3
    ext <;> assumption
  have hdisc' : 0 ≤ discriminant center radius ⟨O, k * D⟩ := by
    rw [discriminant_scale]; positivity
  have ha : (ray.mk O D).direction.length_squared ≠ 0 :=
    fun h => hD ((length_squared_eq_zero_iff _).1 h)
  have hls : (ray.mk O (k * D)).direction.length_squared
      = k * k * (ray.mk O D).direction.length_squared := by
    simp only [ray.direction, length_squared, vec3.smul_def]; ring
  have hdot : dot ((ray.mk O (k * D)).origin - center) (ray.mk O (k * D)).direction
      = k * dot ((ray.mk O D).origin - center) (ray.mk O D).direction := by
    simp only [ray.origin, ray.direction, dot, vec3.sub_def, vec3.smul_def]; ring
  refine ⟨_, hit_sphere_eq_of_disc_nonneg Real.sqrt center radius ⟨O, D⟩ hD hdisc, ?_, ?_⟩
  · rw [hit_sphere_eq_of_disc_nonneg Real.sqrt center radius ⟨O, k * D⟩ hkD hdisc',
      discriminant_scale, Real.sqrt_mul (mul_self_nonneg k), Real.sqrt_mul_self hk.le, hls, hdot]
    congr 1
    field_simp
    ring
  · generalize (-(dot ((ray.mk O D).origin - center) (ray.mk O D).direction)
      - Real.sqrt (discriminant center radius ⟨O, D⟩)) / (ray.mk O D).direction.length_squared = t
    ext <;> simp only [ray.at, vec3.add_def, vec3.smul_def] <;> field_simp <;> ring

/-- Witness of C14: the unit sphere at the origin, the scenario ray and `k = 2`. -/
theorem hit_sphere_scale_witness :
    (⟨0, 0, 1⟩ : vec3 ℝ) ≠ ⟨0, 0, 0⟩ ∧
    0 ≤ discriminant ⟨0, 0, 0⟩ 1 (⟨⟨0, 0, -5⟩, ⟨0, 0, 1⟩⟩ : ray ℝ) ∧
    (0 : ℝ) < 2 ∧
    ∃ t, hit_sphere Real.sqrt ⟨0, 0, 0⟩ 1 (⟨⟨0, 0, -5⟩, ⟨0, 0, 1⟩⟩ : ray ℝ) = some t ∧
      hit_sphere Real.sqrt ⟨0, 0, 0⟩ 1 ⟨⟨0, 0, -5⟩, (2 : ℝ) * (⟨0, 0, 1⟩ : vec3 ℝ)⟩
        = some (t / 2) ∧
      (ray.mk ⟨0, 0, -5⟩ ((2 : ℝ) * (⟨0, 0, 1⟩ : vec3 ℝ))).at (t / 2)
        = (ray.mk ⟨0, 0, -5⟩ (⟨0, 0, 1⟩ : vec3 ℝ)).at t :=
  have hD : (⟨0, 0, 1⟩ : vec3 ℝ) ≠ ⟨0, 0, 0⟩ := by simp
  have hdisc : 0 ≤ discriminant ⟨0, 0, 0⟩ 1 (⟨⟨0, 0, -5⟩, ⟨0, 0, 1⟩⟩ : ray ℝ) := by
    norm_num [discriminant, ray.direction, ray.origin, dot, length_squared]
  ⟨hD, hdisc, two_pos, hit_sphere_scale ⟨0, 0, 0⟩ 1 ⟨0, 0, -5⟩ ⟨0, 0, 1⟩ 2 hD hdisc two_pos⟩

section scene

variable {K G S : Type}

/-- One step of `for_loop`. -/
theorem for_loop_unfold (body : Int → S → S) (lo hi : Int) (s : S) :
    for_loop body lo hi s = if lo < hi then for_loop body (lo + 1) hi (body lo s) else s := by
  rw [for_loop]

/-- A property that the body keeps holds after the loop. -/
theorem for_loop_invariant (body : Int → S → S) (P : S → Prop)
    (hbody : ∀ a s, P s → P (body a s)) (n : Nat) :
    ∀ (lo hi : Int) (s : S), (hi - lo).toNat = n → P s → P (for_loop body lo hi s) := by
  induction n with
  | zero =>
    intro lo hi s hn hs
    rw [for_loop_unfold, if_neg (by omega)]
    exact hs
  | succ n ih =>
    intro lo hi s hn hs
    rw [for_loop_unfold, if_pos (by omega)]
    exact ih (lo + 1) hi _ (by omega) (hbody lo s hs)

/-- A measure that the body raises by at most `c`, and never lowers, is
raised by at most `c` per iteration by the loop. -/
theorem for_loop_measure (body : Int → S → S) (f : S → Nat) (c : Nat)
    (hbody : ∀ a s, f s ≤ f (body a s) ∧ f (body a s) ≤ f s + c) (n : Nat) :
    ∀ (lo hi : Int) (s : S), (hi - lo).toNat = n →
      f s ≤ f (for_loop body lo hi s) ∧ f (for_loop body lo hi s) ≤ f s + c * n := by
  induction n with
  | zero =>
    intro lo hi s hn
    rw [for_loop_unfold, if_neg (by omega)]
    simp
  | succ n ih =>
    intro lo hi s hn
    rw [for_loop_unfold, if_pos (by omega)]
    obtain ⟨h1, h2⟩ := ih (lo + 1) hi (body lo s) (by omega)
    obtain ⟨h3, h4⟩ := hbody lo s
    refine ⟨le_trans h3 h1, le_trans h2 ?_⟩
    rw [Nat.mul_succ]
    omega

variable [LinearOrderedField K]

/-- The body of the inner loop adds no sphere or one sphere of radius `0.2`. -/
theorem random_scene_body_cases (sqrt : K → K) (random_double : G → K × G) (a b : Int)
    (st : hittable_list K × G) :
    (random_scene_body sqrt random_double a b st).1 = st.1 ∨
      ∃ s : sphere K, s.radius = 0.2 ∧
        (random_scene_body sqrt random_double a b st).1 = st.1 ++ [s] := by
  unfold random_scene_body
  simp only []
  split
  · right
    split
    · exact ⟨_, rfl, rfl⟩
    · split
      · exact ⟨_, rfl, rfl⟩
      · exact ⟨_, rfl, rfl⟩
  · left
    rfl

/-- The state after the two loops of `random_scene`, from the state `st`. -/
theorem random_scene_loops (sqrt : K → K) (random_double : G → K × G)
    (st : hittable_list K × G) (hst : ∀ s ∈ st.1, scene_radius s) :
    (∀ s ∈ (for_loop (fun a st1 =>
        for_loop (fun b st2 => random_scene_body sqrt random_double a b st2) (-11) 11 st1)
        (-11) 11 st).1, scene_radius s) ∧
    st.1.length ≤ (for_loop (fun a st1 =>
        for_loop (fun b st2 => random_scene_body sqrt random_double a b st2) (-11) 11 st1)
        (-11) 11 st).1.length ∧
    (for_loop (fun a st1 =>
        for_loop (fun b st2 => random_scene_body sqrt random_double a b st2) (-11) 11 st1)
        (-11) 11 st).1.length ≤ st.1.length + 484 := by
  have hP : ∀ (a b : Int) (s : hittable_list K × G), (∀ x ∈ s.1, scene_radius x) →
      ∀ x ∈ (random_scene_body sqrt random_double a b s).1, scene_radius x := by
    intro a b s hs x hx
    rcases random_scene_body_cases sqrt random_double a b s with h | ⟨y, hy, h⟩
    · rw [h] at hx; exact hs x hx
    · rw [h, List.mem_append, List.mem_singleton] at hx
      rcases hx with hx | hx
      · exact hs x hx
      · rw [hx]; exact Or.inr (Or.inl hy)
  have hf : ∀ (a b : Int) (s : hittable_list K × G),
      s.1.length ≤ (random_scene_body sqrt random_double a b s).1.length ∧
      (random_scene_body sqrt random_double a b s).1.length ≤ s.1.length + 1 := by
    intro a b s
    rcases random_scene_body_cases sqrt random_double a b s with h | ⟨y, -, h⟩
    · rw [h]; omega
    · rw [h, List.length_append, List.length_singleton]; omega
  have hPin : ∀ (a : Int) (s : hittable_list K × G), (∀ x ∈ s.1, scene_radius x) →
      ∀ x ∈ (for_loop (fun b st2 => random_scene_body sqrt random_double a b st2)
        (-11) 11 s).1, scene_radius x :=
    fun a s hs => for_loop_invariant _ (fun s => ∀ x ∈ s.1, scene_radius x)
      (fun b s1 h1 => hP a b s1 h1) 22 (-11) 11 s (by decide) hs
  have hfin : ∀ (a : Int) (s : hittable_list K × G),
      s.1.length ≤ (for_loop (fun b st2 => random_scene_body sqrt random_double a b st2)
        (-11) 11 s).1.length ∧
      (for_loop (fun b st2 => random_scene_body sqrt random_double a b st2)
        (-11) 11 s).1.length ≤ s.1.length + 22 := by
    intro a s
    have h := for_loop_measure (fun b st2 => random_scene_body sqrt random_double a b st2)
      (fun s => s.1.length) 1 (fun b s1 => hf a b s1) 22 (-11) 11 s (by decide)
    simpa using h
  refine ⟨?_, ?_⟩
  · exact for_loop_invariant _ (fun s => ∀ x ∈ s.1, scene_radius x)
      (fun a s1 h1 => hPin a s1 h1) 22 (-11) 11 st (by decide) hst
  · have h := for_loop_measure (fun a st1 =>
        for_loop (fun b st2 => random_scene_body sqrt random_double a b st2) (-11) 11 st1)
      (fun s => s.1.length) 22 (fun a s1 => hfin a s1) 22 (-11) 11 st (by decide)
    simpa using h

end scene

/-- C15: for every random source, every sphere in the list that
`random_scene` returns has one of the radii `1000`, `0.2` and `1.0`, so a
radius `> 0`, and the list holds at least 4 and at most 488 spheres. -/
theorem random_scene_spheres {K G : Type} [LinearOrderedField K] (sqrt : K → K)
    (random_double : G → K × G) (g : G) :
    (∀ s ∈ (random_scene sqrt random_double g).1, scene_radius s ∧ 0 < s.radius) ∧
    4 ≤ (random_scene sqrt random_double g).1.length ∧
    (random_scene sqrt random_double g).1.length ≤ 488 := by
  have hpos : ∀ s : sphere K, scene_radius s → 0 < s.radius := by
    intro s hs
    rcases hs with h | h | h <;> rw [h] <;> norm_num
  obtain ⟨h1, h2, h3⟩ := random_scene_loops sqrt random_double
    ([⟨⟨0, -1000, 0⟩, 1000, scene_material.lambertian ⟨0.5, 0.5, 0.5⟩⟩], g)
    (by
      intro s hs
      rw [List.mem_singleton] at hs
      rw [hs]
      exact Or.inl rfl)
  have hall : ∀ s ∈ (random_scene sqrt random_double g).1, scene_radius s := by
    intro s hs
    simp only [random_scene, List.mem_append, List.mem_singleton] at hs
    rcases hs with ((hs | hs) | hs) | hs
    · exact h1 s hs
    · rw [hs]; exact Or.inr (Or.inr rfl)
    · rw [hs]; exact Or.inr (Or.inr rfl)
    · rw [hs]; exact Or.inr (Or.inr rfl)
  refine ⟨fun s hs => ⟨hall s hs, hpos s (hall s hs)⟩, ?_, ?_⟩
  · simp only [random_scene, List.length_append, List.length_singleton] at h2 ⊢
    omega
  · simp only [random_scene, List.length_append, List.length_singleton] at h3 ⊢
    omega

end RTWeekend
